import Mathlib

/-! MiGo program simplification: the dead-call cleanup pass and the pipeline.

Shallow embedding of `internal/passes/deadcall/deadcall.go` and
`migoutil/simplify.go`, with the MiGo program model they operate on.

Go slices that are mutated in place are modelled as lists threaded through
the loops as explicit state; the loop index is an `Int`, as in the source
(`i--` may take it to `-1` for an instant).  Index expressions that would
panic in Go return `TraverseError.indexOutOfRange`.
-/

namespace migo

/-! ## Program model -/

/-- Modelled from the spec: `migo.Parameter`, a pair of caller-side and
callee-side names (the type declaration is not part of the sources). -/
structure Parameter where
  Caller : String
  Callee : String
  deriving DecidableEq, Repr

/-- Modelled from the spec: `migo.Statement`, the closed set of statement
variants.  The constructors carry the fields the sources use
(`parser/migo.go` builds every variant, `deadcall.go` reads `Name`, `Then`,
`Else` and `Cases`). -/
inductive Statement where
  | CallStatement (Name : String) (Params : List Parameter)
  | SpawnStatement (Name : String) (Params : List Parameter)
  | SendStatement (Chan : String)
  | RecvStatement (Chan : String)
  | CloseStatement (Chan : String)
  | NewChanStatement (Name : String) (Chan : String) (Size : Int)
  | TauStatement
  | IfStatement (Then Else : List Statement)
  | IfForStatement (Then Else : List Statement)
  | SelectStatement (Cases : List (List Statement))
  | NewSyncMutex (Name : String)
  | SyncMutexLock (Name : String)
  | SyncMutexUnlock (Name : String)
  | NewSyncRWMutex (Name : String)
  | SyncRWMutexRLock (Name : String)
  | SyncRWMutexRUnlock (Name : String)
  | NewMem (Name : String)
  | MemRead (Name : String)
  | MemWrite (Name : String)
  deriving Repr

/-- Modelled from the spec: `migo.Function`, a name, formal parameters and a
body. -/
structure Function where
  Name : String
  Params : List Parameter
  Stmts : List Statement
  deriving Repr

/-- Modelled from the spec: `migo.Program`, the ordered function table. -/
structure Program where
  Funcs : List Function
  deriving Repr

/-- Modelled from the spec: `Program.Function(name)`, lookup by name, total
and side-effect free, returning the definition when present. -/
def Program.Function (p : Program) (name : String) : Option Function :=
  p.Funcs.find? (fun f => f.Name == name)

/-- Modelled from the spec: `Function.IsEmpty()`, true iff the body is the
empty sequence or exactly one `Tau`. -/
def Function.IsEmpty (f : Function) : Bool :=
  match f.Stmts with
  | [] => true
  | [.TauStatement] => true
  | _ => false

/-- The function with its body replaced. -/
def withStmts (f : Function) (stmts : List Statement) : Function :=
  { Name := f.Name, Params := f.Params, Stmts := stmts }

/-! ## The cleanup pass (`deadcall`) -/

namespace deadcall

/-- Ways the embedded loops can stop without a result: the recursion budget
of the embedding ran out, or an index expression was out of range (a Go
run-time panic). -/
inductive TraverseError where
  | outOfFuel
  | indexOutOfRange
  deriving DecidableEq, Repr

/-- Go index expression `ss[i]` with an `int` index. -/
def index {α : Type} (ss : List α) (i : Int) : Except TraverseError α :=
  if 0 ≤ i then
    match ss[i.toNat]? with
    | some s => .ok s
    | none => .error .indexOutOfRange
  else .error .indexOutOfRange

/-- Go `ss = append(ss[:i], ss[i+1:]...)`. -/
def deleteAt {α : Type} (ss : List α) (i : Int) : List α :=
  ss.take i.toNat ++ ss.drop (i.toNat + 1)

/-- Go `_, ok = s.(*migo.TauStatement)`. -/
def isTauStatement : Statement → Bool
  | .TauStatement => true
  | _ => false

/-- Go `if len(b) == 1 { _, isTau = b[0].(*migo.TauStatement) }` with
`isTau` initially false. -/
def branchIsTau (b : List Statement) : Except TraverseError Bool :=
  if b.length = 1 then do
    let s ← index b 0
    pure (isTauStatement s)
  else pure false

/-- Second loop of the `SelectStatement` case (deadcall.go lines 63-73):
walks the cases in order, replaces a case of length 0 by `[Tau]`, and
accumulates the flags `tau` (all cases are tau) and `tauOne` (some case is
tau).  Returns the updated cases with the final flags. -/
def selectFlags : List (List Statement) → Bool → Bool →
    Except TraverseError (List (List Statement) × Bool × Bool)
  | [], tau, tauOne => pure ([], tau, tauOne)
  | c :: rest, tau, tauOne => do
    let (c', tauCase) ←
      (if c.length = 1 then do
        let s ← index c 0
        pure (c, isTauStatement s)
      else if c.length = 0 then
        pure ([Statement.TauStatement], true)
      else pure (c, false) : Except TraverseError (List Statement × Bool))
    let (rest', tau', tauOne') ← selectFlags rest (tau && tauCase) (tauOne || tauCase)
    pure (c' :: rest', tau', tauOne')

/-- The pass state `undefRemover`: the program whose function table decides
which names are defined. -/
structure undefRemover where
  prog : Program

/-- Go `_, found := r.prog.Function(name)`. -/
def undefRemover.found (r : undefRemover) (name : String) : Bool :=
  (r.prog.Function name).isSome

mutual
/-- The method `undefRemover.traverse` (deadcall.go lines 20-99): runs the
scan loop from index 0, then replaces an empty result by `[Tau]`.  The first
argument bounds the nesting of calls in the embedding. -/
def undefRemover.traverse (r : undefRemover) :
    Nat → List Statement → Except TraverseError (List Statement)
  | 0, _ => .error .outOfFuel
  | fuel + 1, stmts => do
    let ss ← undefRemover.traverseLoop r fuel stmts 0
    if ss.length = 0 then pure [Statement.TauStatement] else pure ss
/-- The loop `for i := 0; i < len(ss); i++` of `traverse`, from the state
`(ss, i)`.  A deletion continues at `(i - 1) + 1`: the body's `i--` followed
by the loop's `i++`. -/
def undefRemover.traverseLoop (r : undefRemover) :
    Nat → List Statement → Int → Except TraverseError (List Statement)
  | 0, _, _ => .error .outOfFuel
  | fuel + 1, ss, i =>
    if i < (ss.length : Int) then do
      let stmt ← index ss i
      match stmt with
      | .IfForStatement Then Else => do
        let Then ← undefRemover.traverse r fuel Then
        let Else ← undefRemover.traverse r fuel Else
        -- `stmt` is a pointer: the traversals above rewrote the node in `ss`
        let stmt := Statement.IfForStatement Then Else
        let ss := ss.set i.toNat stmt
        let isThenTau ← branchIsTau Then
        let isElseTau ← branchIsTau Else
        if isThenTau && isElseTau then
          undefRemover.traverseLoop r fuel (deleteAt ss i) ((i - 1) + 1)
        else if isElseTau || isThenTau then
          undefRemover.traverseLoop r fuel (ss.set i.toNat stmt) (i + 1)
        else
          undefRemover.traverseLoop r fuel ss (i + 1)
      | .IfStatement Then Else => do
        let Then ← undefRemover.traverse r fuel Then
        let Else ← undefRemover.traverse r fuel Else
        let stmt := Statement.IfStatement Then Else
        let ss := ss.set i.toNat stmt
        let isThenTau ← branchIsTau Then
        let isElseTau ← branchIsTau Else
        if isThenTau && isElseTau then
          undefRemover.traverseLoop r fuel (deleteAt ss i) ((i - 1) + 1)
        else if isElseTau || isThenTau then
          undefRemover.traverseLoop r fuel (ss.set i.toNat stmt) (i + 1)
        else
          undefRemover.traverseLoop r fuel ss (i + 1)
      | .SelectStatement Cases => do
        let Cases ← Cases.mapM (undefRemover.traverse r fuel)
        let (Cases, tau, tauOne) ← selectFlags Cases true false
        let stmt := Statement.SelectStatement Cases
        let ss := ss.set i.toNat stmt
        if tau then
          undefRemover.traverseLoop r fuel (deleteAt ss i) ((i - 1) + 1)
        else if tauOne then
          undefRemover.traverseLoop r fuel (ss.set i.toNat stmt) (i + 1)
        else
          undefRemover.traverseLoop r fuel ss (i + 1)
      | .SpawnStatement Name _ =>
        if !(r.found Name) then
          undefRemover.traverseLoop r fuel (deleteAt ss i) ((i - 1) + 1)
        else
          undefRemover.traverseLoop r fuel ss (i + 1)
      | .CallStatement Name _ =>
        if !(r.found Name) then
          undefRemover.traverseLoop r fuel (deleteAt ss i) ((i - 1) + 1)
        else
          undefRemover.traverseLoop r fuel ss (i + 1)
      | _ => undefRemover.traverseLoop r fuel ss (i + 1)
    else pure ss
end

mutual
/-- Number of nodes of a statement, counting the end of every sequence. -/
def stmtSize : Statement → Nat
  | .IfStatement t e => 1 + sizeList t + sizeList e
  | .IfForStatement t e => 1 + sizeList t + sizeList e
  | .SelectStatement cs => 1 + sizeCases cs
  | _ => 1
/-- Number of nodes of a sequence. -/
def sizeList : List Statement → Nat
  | [] => 1
  | s :: ss => stmtSize s + sizeList ss
/-- Number of nodes of a list of cases. -/
def sizeCases : List (List Statement) → Nat
  | [] => 1
  | c :: cs => sizeList c + sizeCases cs
end

/-- The method `traverse` run with a call budget that covers the whole
tree. -/
def undefRemover.run (r : undefRemover) (stmts : List Statement) :
    Except TraverseError (List Statement) :=
  r.traverse (sizeList stmts + 1) stmts

/-- The loop `for i := range prog.Funcs` of `Remove`, with `n` iterations
left from index `i`; every iteration rewrites `prog.Funcs[i].Stmts` in
place, and the remover looks names up in the program as it is then. -/
def RemoveLoop : Nat → Nat → Program → Except TraverseError Program
  | 0, _, prog => pure prog
  | n + 1, i, prog => do
    let f ← index prog.Funcs (i : Int)
    let stmts ← (undefRemover.mk prog).run f.Stmts
    RemoveLoop n (i + 1) { Funcs := prog.Funcs.set i (withStmts f stmts) }

/-- The function `Remove` (deadcall.go lines 9-14). -/
def Remove (prog : Program) : Except TraverseError Program :=
  RemoveLoop prog.Funcs.length 0 prog

end deadcall

/-! ## The passes that prune the function table

`taufunc` and `unused` are called by `SimplifyProgram`; their sources are
not part of this development, so they are written down from the
specification. -/

namespace taufunc

/-- Modelled from the spec: the policy argument of `taufunc.Find`, either
`Remove` (remove every silent function) or `RemoveExcept(entry)` (remove
every silent function but the entry). -/
inductive Mode where
  | Remove
  | RemoveExcept (entry : Function)

/-- Modelled from the spec: the body of a candidate with every `Call` and
`Spawn` whose target is a current candidate removed.  The pass collapses no
control flow, so an `If`, `IfFor` or `Select` of the body stays and keeps
the body from being empty, whatever it contains. -/
def withoutCandidateCalls (cands : List String) (stmts : List Statement) : List Statement :=
  stmts.filter (fun s =>
    match s with
    | .CallStatement n _ => !(cands.contains n)
    | .SpawnStatement n _ => !(cands.contains n)
    | _ => true)

/-- Modelled from the spec: a candidate stays a candidate when its body
without the calls to candidates is empty or exactly `[Tau]`. -/
def staysCandidate (cands : List String) (f : Function) : Bool :=
  (withStmts f (withoutCandidateCalls cands f.Stmts)).IsEmpty

/-- Modelled from the spec: one round of the classification, every
candidate checked against the current candidates. -/
def refine (prog : Program) (cands : List String) : List String :=
  cands.filter (fun n =>
    match prog.Function n with
    | some f => staysCandidate cands f
    | none => false)

/-- Modelled from the spec: rounds repeated until no candidate is
reclassified; the number of rounds is bounded by the function count. -/
def classify (prog : Program) : Nat → List String → List String
  | 0, cands => cands
  | rounds + 1, cands =>
    let next := refine prog cands
    if next.length = cands.length then cands else classify prog rounds next

/-- Modelled from the spec: the set S of silent functions, the greatest
fixed point reached from "every function is a candidate". -/
def silent (prog : Program) : List String :=
  classify prog prog.Funcs.length (prog.Funcs.map (fun f => f.Name))

/-- Modelled from the spec: `taufunc.Find(prog, mode)`, deleting the members
of S from the function table, the entry excepted under `RemoveExcept`.  No
statement is rewritten. -/
def Find (prog : Program) (mode : Mode) : Program :=
  match mode with
  | .Remove =>
    { Funcs := prog.Funcs.filter (fun f => !((silent prog).contains f.Name)) }
  | .RemoveExcept entry =>
    { Funcs := prog.Funcs.filter (fun f =>
        f.Name == entry.Name || !((silent prog).contains f.Name)) }

end taufunc

namespace unused

mutual
/-- Modelled from the spec: the `Call` and `Spawn` targets of a statement,
found by scanning it recursively. -/
def targets : Statement → List String
  | .CallStatement n _ => [n]
  | .SpawnStatement n _ => [n]
  | .IfStatement t e => targetsList t ++ targetsList e
  | .IfForStatement t e => targetsList t ++ targetsList e
  | .SelectStatement cs => targetsCases cs
  | _ => []
/-- Modelled from the spec: the targets of a sequence. -/
def targetsList : List Statement → List String
  | [] => []
  | s :: ss => targets s ++ targetsList ss
/-- Modelled from the spec: the targets of the cases of a select. -/
def targetsCases : List (List Statement) → List String
  | [] => []
  | c :: cs => targetsList c ++ targetsCases cs
end

/-- Adds the names not yet marked. -/
def mark (marked : List String) (more : List String) : List String :=
  more.foldl (fun acc n => if acc.contains n then acc else acc ++ [n]) marked

/-- Modelled from the spec: one step of the mark set, adding the targets of
every marked function that is defined. -/
def grow (prog : Program) (marked : List String) : List String :=
  mark marked (marked.flatMap (fun n =>
    match prog.Function n with
    | some f => targetsList f.Stmts
    | none => []))

/-- Modelled from the spec: the mark set grown from the entry. -/
def reach (prog : Program) : Nat → List String → List String
  | 0, marked => marked
  | steps + 1, marked => reach prog steps (grow prog marked)

/-- Modelled from the spec: the names reachable from the entry, the entry
itself included. -/
def reachable (prog : Program) (entry : Function) : List String :=
  reach prog prog.Funcs.length [entry.Name]

/-- Modelled from the spec: `unused.Remove(prog, entry)`, deleting every
function that is not reachable from the entry. -/
def Remove (prog : Program) (entry : Function) : Program :=
  { Funcs := prog.Funcs.filter (fun f => (reachable prog entry).contains f.Name) }

end unused

/-! ## The pipeline (`migoutil`) -/

namespace migoutil

/-- The function `SimplifyProgram` (simplify.go lines 14-23). -/
def SimplifyProgram (prog : Program) : Except deadcall.TraverseError Program :=
  match prog.Function "\"main\".main" with
  | some mainmain =>
    let prog := taufunc.Find prog (taufunc.Mode.RemoveExcept mainmain)
    let prog := unused.Remove prog mainmain
    deadcall.Remove prog
  | none =>
    let prog := taufunc.Find prog taufunc.Mode.Remove
    deadcall.Remove prog

end migoutil

open deadcall

/-! ## Reference semantics of the scan

A second description of what `traverse` computes, as a function that builds
a new list; the loop above is shown to compute it. -/

/-- The sequence is exactly `[Tau]`. -/
def isTauSeq : List Statement → Bool
  | [.TauStatement] => true
  | _ => false

/-- An empty sequence becomes `[Tau]`. -/
def orTau (ss : List Statement) : List Statement :=
  if ss.length = 0 then [Statement.TauStatement] else ss

mutual
/-- What the scan does with one statement: `none` when it is deleted,
otherwise the statement that is kept (branches and cases cleaned). -/
def cleanStmt (d : String → Bool) : Statement → Option Statement
  | .CallStatement n ps => if d n then some (.CallStatement n ps) else none
  | .SpawnStatement n ps => if d n then some (.SpawnStatement n ps) else none
  | .IfStatement t e =>
    if isTauSeq (orTau (cleanList d t)) && isTauSeq (orTau (cleanList d e)) then none
    else some (.IfStatement (orTau (cleanList d t)) (orTau (cleanList d e)))
  | .IfForStatement t e =>
    if isTauSeq (orTau (cleanList d t)) && isTauSeq (orTau (cleanList d e)) then none
    else some (.IfForStatement (orTau (cleanList d t)) (orTau (cleanList d e)))
  | .SelectStatement cs =>
    if (cleanCases d cs).all isTauSeq then none
    else some (.SelectStatement (cleanCases d cs))
  | s => some s
/-- The statements kept from a sequence, in order. -/
def cleanList (d : String → Bool) : List Statement → List Statement
  | [] => []
  | s :: ss =>
    match cleanStmt d s with
    | none => cleanList d ss
    | some s' => s' :: cleanList d ss
/-- Every case of a select cleaned as a sequence of its own. -/
def cleanCases (d : String → Bool) : List (List Statement) → List (List Statement)
  | [] => []
  | c :: cs => orTau (cleanList d c) :: cleanCases d cs
end

/-- A whole sequence cleaned: the kept statements, or `[Tau]` when none is
kept. -/
def cleanSeq (d : String → Bool) (ss : List Statement) : List Statement :=
  orTau (cleanList d ss)

/-- Names of the function table, in order. -/
def names (p : Program) : List String := p.Funcs.map (fun f => f.Name)

/-- Reference semantics of `Remove`: every body cleaned against the names of
the program. -/
def cleanProgram (p : Program) : Program :=
  { Funcs := p.Funcs.map (fun f => withStmts f (cleanSeq (undefRemover.mk p).found f.Stmts)) }


/-! ## Properties stated about statement trees -/

/-- The sequence `x` is a statement sequence of `l`: `l` itself, or a
`Then`, an `Else` or a case of a statement of `l`, at any nesting depth. -/
inductive Nested : List Statement → List Statement → Prop where
  | self (l : List Statement) : Nested l l
  | ifThen {x l t e : List Statement} :
      Statement.IfStatement t e ∈ l → Nested x t → Nested x l
  | ifElse {x l t e : List Statement} :
      Statement.IfStatement t e ∈ l → Nested x e → Nested x l
  | ifForThen {x l t e : List Statement} :
      Statement.IfForStatement t e ∈ l → Nested x t → Nested x l
  | ifForElse {x l t e : List Statement} :
      Statement.IfForStatement t e ∈ l → Nested x e → Nested x l
  | selectCase {x l c : List Statement} {cs : List (List Statement)} :
      Statement.SelectStatement cs ∈ l → c ∈ cs → Nested x c → Nested x l

/-- The sequence `x` is a statement sequence strictly inside the statement
`s`. -/
def Deep (x : List Statement) : Statement → Prop
  | .IfStatement t e => Nested x t ∨ Nested x e
  | .IfForStatement t e => Nested x t ∨ Nested x e
  | .SelectStatement cs => ∃ c ∈ cs, Nested x c
  | _ => False

/-- The target of a `Call` or `Spawn`. -/
def callTarget : Statement → Option String
  | .CallStatement n _ => some n
  | .SpawnStatement n _ => some n
  | _ => none

/-- A `Call` or `Spawn` whose target the table `d` knows. -/
def isFoundCall (d : String → Bool) (s : Statement) : Bool :=
  match callTarget s with
  | some n => d n
  | none => false

/-- A statement without branches or cases. -/
def isLeaf : Statement → Bool
  | .IfStatement _ _ => false
  | .IfForStatement _ _ => false
  | .SelectStatement _ => false
  | _ => true

mutual
/-- The leaf statements of a statement that are neither `Tau` nor a `Call`
or `Spawn` of a name unknown to `d`, depth first and left to right. -/
def leaves (d : String → Bool) : Statement → List Statement
  | .TauStatement => []
  | .CallStatement n ps => if d n then [.CallStatement n ps] else []
  | .SpawnStatement n ps => if d n then [.SpawnStatement n ps] else []
  | .IfStatement t e => leavesList d t ++ leavesList d e
  | .IfForStatement t e => leavesList d t ++ leavesList d e
  | .SelectStatement cs => leavesCases d cs
  | s => [s]
/-- The leaves of a sequence. -/
def leavesList (d : String → Bool) : List Statement → List Statement
  | [] => []
  | s :: ss => leaves d s ++ leavesList d ss
/-- The leaves of the cases of a select, case after case. -/
def leavesCases (d : String → Bool) : List (List Statement) → List Statement
  | [] => []
  | c :: cs => leavesList d c ++ leavesCases d cs
end


/-! ## Example programs -/

/-- A function without parameters. -/
def func (name : String) (stmts : List Statement) : Function :=
  { Name := name, Params := [], Stmts := stmts }

/-- An entry that sends and calls `f`; the body of `f` is a select whose two
cases each only call the silent function `w`. -/
def vacuousSelect : Program :=
  { Funcs := [
      func "\"main\".main" [.SendStatement "x", .CallStatement "f" []],
      func "f" [.SelectStatement [[.CallStatement "w" []], [.CallStatement "w" []]]],
      func "w" [.TauStatement]] }

/-- The program `vacuousSelect` after one run of the pipeline. -/
def vacuousSelectOnce : Program :=
  { Funcs := [
      func "\"main\".main" [.SendStatement "x", .CallStatement "f" []],
      func "f" [.TauStatement]] }

/-- The program `vacuousSelect` after two runs of the pipeline. -/
def vacuousSelectTwice : Program :=
  { Funcs := [func "\"main\".main" [.SendStatement "x"]] }

/-- An entry whose body is only a call of the silent function `w`. -/
def silentEntry : Program :=
  { Funcs := [
      func "\"main\".main" [.CallStatement "w" []],
      func "w" [.TauStatement]] }

/-- Scenario A of the tests with the entry named as the pipeline expects:
the entry spawns `s`, `r` and the silent `work`. -/
def scenarioA : Program :=
  { Funcs := [
      func "\"main\".main" [.NewChanStatement "ch" "ch_instance" 0,
        .SpawnStatement "s" [⟨"ch", "ch"⟩], .SpawnStatement "r" [⟨"ch", "ch"⟩],
        .SpawnStatement "work" [], .RecvStatement "ch", .RecvStatement "ch"],
      { Name := "s", Params := [⟨"ch", "sch"⟩], Stmts := [.SendStatement "sch"] },
      { Name := "r", Params := [⟨"ch", "rch"⟩],
        Stmts := [.RecvStatement "rch", .SendStatement "rch"] },
      func "work" [.TauStatement]] }

/-- The program `scenarioA` simplified. -/
def scenarioAOnce : Program :=
  { Funcs := [
      func "\"main\".main" [.NewChanStatement "ch" "ch_instance" 0,
        .SpawnStatement "s" [⟨"ch", "ch"⟩], .SpawnStatement "r" [⟨"ch", "ch"⟩],
        .RecvStatement "ch", .RecvStatement "ch"],
      { Name := "s", Params := [⟨"ch", "sch"⟩], Stmts := [.SendStatement "sch"] },
      { Name := "r", Params := [⟨"ch", "rch"⟩],
        Stmts := [.RecvStatement "rch", .SendStatement "rch"] }] }

/-- Scenario B of the tests after the table has been pruned: `workwork`,
`workworkwork` and `work$1` are gone, the body of `work` still calls them. -/
def scenarioBPruned : Program :=
  { Funcs := [
      func "main.main" [.NewChanStatement "ch" "ch_instance" 1,
        .CallStatement "work" [⟨"ch", "ch"⟩]],
      func "work" [.CallStatement "workwork" [], .SpawnStatement "work$1" [⟨"ch", "ch"⟩],
        .CallStatement "work$2" [⟨"ch", "ch"⟩]],
      { Name := "work$2", Params := [⟨"ch", "ch"⟩],
        Stmts := [.CallStatement "work$3" [⟨"ch", "ch"⟩]] },
      { Name := "work$3", Params := [⟨"ch", "ch"⟩],
        Stmts := [.RecvStatement "ch", .SendStatement "ch"] }] }

/-- Scenario C of the tests (`TestSimplifyProgram3`): `main.xx#2` is called
but not defined. -/
def scenarioC : Program :=
  { Funcs := [
      func "main.main" [.NewChanStatement "t0" "main.main.t0_0_0" 0,
        .NewChanStatement "t1" "main.main.t1_0_0" 0,
        .CallStatement "main.xx" [⟨"t0", "t0"⟩, ⟨"t1", "t1"⟩],
        .SpawnStatement "main.wait" [⟨"t0", "t0"⟩], .SpawnStatement "main.wait" [⟨"t1", "t1"⟩]],
      { Name := "main.xx", Params := [⟨"x", "x"⟩, ⟨"y", "y"⟩],
        Stmts := [.IfStatement
          [.SendStatement "x", .SpawnStatement "main.xx" [⟨"y", "y"⟩, ⟨"x", "x"⟩],
            .CallStatement "main.xx#2" [⟨"x", "x"⟩, ⟨"y", "y"⟩]]
          [.CallStatement "main.xx#2" [⟨"x", "x"⟩, ⟨"y", "y"⟩]]] },
      { Name := "main.wait", Params := [⟨"x", "x"⟩],
        Stmts := [.CallStatement "main.wait#1" [⟨"x", "x"⟩]] },
      { Name := "main.wait#1", Params := [⟨"x", "x"⟩],
        Stmts := [.RecvStatement "x", .CallStatement "main.wait#1" [⟨"x", "x"⟩]] }] }

/-- Scenario D of the tests as cases of a select: two cases only call or
spawn `main.xx#2`, one sends. -/
def scenarioDCases : List (List Statement) :=
  [[.CallStatement "main.xx#2" []], [.SendStatement "x"], [.SpawnStatement "main.xx#2" []]]


/-- The program of `TestSimplfyProgramMemOp` as the test builds it: the
entry is named `main.main`, `work` reads and writes memory and nothing calls
it, `empty` has no statement.  (The test leaves the callee side of the
spawn parameters unset.) -/
def memOp : Program :=
  { Funcs := [
      func "main.main" [.NewChanStatement "ch" "ch_instance" 0, .NewMem "mem0",
        .SpawnStatement "send" [⟨"ch", ""⟩], .SpawnStatement "recv" [⟨"ch", ""⟩],
        .RecvStatement "ch", .RecvStatement "ch", .MemWrite "mem0"],
      { Name := "send", Params := [⟨"ch", "sch"⟩],
        Stmts := [.SendStatement "sch", .MemWrite "mem0"] },
      { Name := "recv", Params := [⟨"ch", "rch"⟩],
        Stmts := [.RecvStatement "rch", .SendStatement "rch"] },
      func "work" [.MemRead "mem0", .MemWrite "mem0"],
      func "empty" []] }

/-- The program `memOp` simplified. -/
def memOpOnce : Program :=
  { Funcs := [
      func "main.main" [.NewChanStatement "ch" "ch_instance" 0, .NewMem "mem0",
        .SpawnStatement "send" [⟨"ch", ""⟩], .SpawnStatement "recv" [⟨"ch", ""⟩],
        .RecvStatement "ch", .RecvStatement "ch", .MemWrite "mem0"],
      { Name := "send", Params := [⟨"ch", "sch"⟩],
        Stmts := [.SendStatement "sch", .MemWrite "mem0"] },
      { Name := "recv", Params := [⟨"ch", "rch"⟩],
        Stmts := [.RecvStatement "rch", .SendStatement "rch"] },
      func "work" [.MemRead "mem0", .MemWrite "mem0"]] }

mutual
/-- The statement performs an observable action: it is, or contains at some
depth, a leaf other than `Tau`, `Call` and `Spawn`. -/
def acts : Statement → Bool
  | .TauStatement => false
  | .CallStatement _ _ => false
  | .SpawnStatement _ _ => false
  | .IfStatement t e => actsList t || actsList e
  | .IfForStatement t e => actsList t || actsList e
  | .SelectStatement cs => actsCases cs
  | _ => true
/-- Some statement of the sequence performs an observable action. -/
def actsList : List Statement → Bool
  | [] => false
  | s :: ss => acts s || actsList ss
/-- Some case performs an observable action. -/
def actsCases : List (List Statement) → Bool
  | [] => false
  | c :: cs => actsList c || actsCases cs
end

/-- Scenario A as the tests write it, the entry named `main.main`: the
entry spawns `s`, `r` and `work`, and the body of `work` is `tau`. -/
def scenarioATest : Program :=
  { Funcs := [
      func "main.main" [.NewChanStatement "ch" "ch_instance" 0,
        .SpawnStatement "s" [⟨"ch", "ch"⟩], .SpawnStatement "r" [⟨"ch", "ch"⟩],
        .SpawnStatement "work" [], .RecvStatement "ch", .RecvStatement "ch"],
      { Name := "s", Params := [⟨"ch", "sch"⟩], Stmts := [.SendStatement "sch"] },
      { Name := "r", Params := [⟨"ch", "rch"⟩],
        Stmts := [.RecvStatement "rch", .SendStatement "rch"] },
      func "work" [.TauStatement]] }

/-- The program `scenarioATest` simplified. -/
def scenarioATestOnce : Program :=
  { Funcs := [
      func "main.main" [.NewChanStatement "ch" "ch_instance" 0,
        .SpawnStatement "s" [⟨"ch", "ch"⟩], .SpawnStatement "r" [⟨"ch", "ch"⟩],
        .RecvStatement "ch", .RecvStatement "ch"],
      { Name := "s", Params := [⟨"ch", "sch"⟩], Stmts := [.SendStatement "sch"] },
      { Name := "r", Params := [⟨"ch", "rch"⟩],
        Stmts := [.RecvStatement "rch", .SendStatement "rch"] }] }

/-- An entry that sends, a function `g` that sends and that nothing calls,
and the silent function `w`. -/
def unreachableAction : Program :=
  { Funcs := [
      func "\"main\".main" [.SendStatement "x"],
      func "g" [.SendStatement "y"],
      func "w" [.TauStatement]] }

/-- The program `unreachableAction` simplified. -/
def unreachableActionOnce : Program :=
  { Funcs := [func "\"main\".main" [.SendStatement "x"]] }

/-- An entry that sends and calls `f`; `f` only calls `g` and `g` only calls
`f`. -/
def silentCycle : Program :=
  { Funcs := [
      func "\"main\".main" [.SendStatement "x", .CallStatement "f" []],
      func "f" [.CallStatement "g" []],
      func "g" [.CallStatement "f" []]] }

/-- The program `silentCycle` simplified. -/
def silentCycleOnce : Program :=
  { Funcs := [func "\"main\".main" [.SendStatement "x"]] }

mutual
/-- The statement with every `IfFor`, at any depth, turned into an `If` with
the same branches. -/
def ifForToIf : Statement → Statement
  | .IfForStatement t e => .IfStatement (ifForToIfList t) (ifForToIfList e)
  | .IfStatement t e => .IfStatement (ifForToIfList t) (ifForToIfList e)
  | .SelectStatement cs => .SelectStatement (ifForToIfCases cs)
  | s => s
/-- Every statement of the sequence with its `IfFor`s turned into `If`s. -/
def ifForToIfList : List Statement → List Statement
  | [] => []
  | s :: ss => ifForToIf s :: ifForToIfList ss
/-- Every case with its `IfFor`s turned into `If`s. -/
def ifForToIfCases : List (List Statement) → List (List Statement)
  | [] => []
  | c :: cs => ifForToIfList c :: ifForToIfCases cs
end

/-- A vacuous construct: an `If` or `IfFor` whose `Then` and `Else` are both
exactly `[Tau]`, or a `Select` whose cases are all exactly `[Tau]`. -/
def vacuous : Statement → Bool
  | .IfStatement t e => isTauSeq t && isTauSeq e
  | .IfForStatement t e => isTauSeq t && isTauSeq e
  | .SelectStatement cs => cs.all isTauSeq
  | _ => false

/-! ## The loop computes the reference semantics -/

theorem stmtSize_pos (s : Statement) : 1 ≤ stmtSize s := by
  cases s <;> simp [stmtSize] <;> omega

theorem sizeList_pos (l : List Statement) : 1 ≤ sizeList l := by
  cases l with
  | nil => simp [sizeList]
  | cons s ss =>
    have := stmtSize_pos s
    simp [sizeList]; omega

theorem sizeCases_mem (cs : List (List Statement)) :
    ∀ c ∈ cs, sizeList c < sizeCases cs := by
  induction cs with
  | nil => simp
  | cons c cs ih =>
    intro x hx
    have hpos : 1 ≤ sizeCases cs := by
      cases cs with
      | nil => simp [sizeCases]
      | cons a b =>
        have := sizeList_pos a
        simp [sizeCases]; omega
    rcases List.mem_cons.mp hx with h | h
    · subst h; simp [sizeCases]; omega
    · have := ih x h
      have := sizeList_pos c
      simp [sizeCases]; omega

theorem index_append {α : Type} (pre : List α) (s : α) (rest : List α) :
    index (pre ++ s :: rest) (pre.length : Int) = .ok s := by
  have h : (pre ++ s :: rest)[pre.length]? = some s := by
    rw [List.getElem?_append_right (Nat.le_refl _)]; simp
  simp [index, h]

theorem set_append_mid {α : Type} (pre : List α) (s s' : α) (rest : List α) :
    (pre ++ s :: rest).set (pre.length : Int).toNat s' = pre ++ s' :: rest := by
  simp

theorem deleteAt_append {α : Type} (pre : List α) (s : α) (rest : List α) :
    deleteAt (pre ++ s :: rest) (pre.length : Int) = pre ++ rest := by
  simp [deleteAt]

theorem branchIsTau_eq (b : List Statement) : branchIsTau b = .ok (isTauSeq b) := by
  unfold branchIsTau
  match b with
  | [] => simp [isTauSeq]; rfl
  | [s] => cases s <;> simp [index, isTauSeq, isTauStatement]
  | _ :: _ :: _ => simp [isTauSeq]; rfl

theorem selectFlags_eq (cs : List (List Statement)) (tau tauOne : Bool) :
    selectFlags cs tau tauOne =
      .ok (cs.map orTau, tau && (cs.map orTau).all isTauSeq,
        tauOne || (cs.map orTau).any isTauSeq) := by
  induction cs generalizing tau tauOne with
  | nil => simp [selectFlags]; rfl
  | cons c cs ih =>
    match c with
    | [] => simp [selectFlags, ih, orTau, isTauSeq, bind, Except.bind, pure, Except.pure]
    | [s] =>
      cases s <;>
        simp [selectFlags, ih, orTau, isTauSeq, isTauStatement, index, bind, Except.bind,
          pure, Except.pure, Bool.and_assoc, Bool.or_assoc]
    | _ :: _ :: _ =>
      simp [selectFlags, ih, orTau, isTauSeq, bind, Except.bind, pure, Except.pure]

theorem ok_bind {ε α β : Type} (a : α) (f : α → Except ε β) :
    (Except.ok a >>= f) = f a := rfl

theorem mapM_ok {α β : Type} (f : α → Except TraverseError β) (g : α → β) (cs : List α)
    (h : ∀ c ∈ cs, f c = .ok (g c)) : cs.mapM f = .ok (cs.map g) := by
  induction cs with
  | nil => simp; rfl
  | cons c cs ih =>
    have h1 := h c (by simp)
    have h2 := ih (fun x hx => h x (by simp [hx]))
    rw [List.mapM_cons, h1, h2]; rfl

theorem cleanCases_eq_map (d : String → Bool) (cs : List (List Statement)) :
    cleanCases d cs = cs.map (cleanSeq d) := by
  induction cs with
  | nil => simp [cleanCases]
  | cons c cs ih => simp [cleanCases, ih, cleanSeq]

theorem orTau_orTau (ss : List Statement) : orTau (orTau ss) = orTau ss := by
  cases ss <;> simp [orTau]

theorem traverse_clean_aux (r : undefRemover) : ∀ fuel,
    (∀ stmts, sizeList stmts < fuel →
      r.traverse fuel stmts = .ok (cleanSeq r.found stmts)) ∧
    (∀ pre suf, sizeList suf ≤ fuel →
      r.traverseLoop fuel (pre ++ suf) (pre.length : Int)
        = .ok (pre ++ cleanList r.found suf)) := by
  intro fuel
  induction fuel with
  | zero =>
    constructor
    · intro stmts h; omega
    · intro pre suf h; have := sizeList_pos suf; omega
  | succ fuel ih =>
    obtain ⟨ihT, ihL⟩ := ih
    have keep : ∀ pre (s' : Statement) rest, sizeList rest ≤ fuel →
        r.traverseLoop fuel (pre ++ s' :: rest) ((pre.length : Int) + 1)
          = .ok (pre ++ s' :: cleanList r.found rest) := by
      intro pre s' rest h
      have := ihL (pre ++ [s']) rest h
      simpa using this
    constructor
    · intro stmts h
      have := ihL [] stmts (by omega)
      simp at this
      simp [undefRemover.traverse, this, cleanSeq, orTau, ok_bind]
      split <;> rfl
    · intro pre suf h
      cases suf with
      | nil => simp [undefRemover.traverseLoop, cleanList]; rfl
      | cons s rest =>
        have hs := stmtSize_pos s
        have hsz : stmtSize s + sizeList rest ≤ fuel + 1 := by simpa [sizeList] using h
        have hrest : sizeList rest ≤ fuel := by omega
        have hlt : (pre.length : Int) < ((pre ++ s :: rest).length : Int) := by
          simp
        rw [undefRemover.traverseLoop]
        simp only [hlt, if_true, index_append, ok_bind]
        cases s with
        | IfStatement t e =>
          have ht : sizeList t < fuel := by
            have := sizeList_pos e
            simp [stmtSize] at hsz; omega
          have he : sizeList e < fuel := by
            have := sizeList_pos t
            simp [stmtSize] at hsz; omega
          simp only [ihT t ht, ihT e he, ok_bind, branchIsTau_eq, set_append_mid,
            deleteAt_append]
          by_cases hb : (isTauSeq (cleanSeq r.found t) && isTauSeq (cleanSeq r.found e)) = true
          · have hb' := hb
            simp only [cleanSeq] at hb'
            simp [hb, hb', ihL _ _ hrest, cleanList, cleanStmt]
          · have hb' := hb
            simp only [cleanSeq] at hb'
            simp [hb, hb', keep _ _ _ hrest, cleanList, cleanStmt, cleanSeq]
        | IfForStatement t e =>
          have ht : sizeList t < fuel := by
            have := sizeList_pos e
            simp [stmtSize] at hsz; omega
          have he : sizeList e < fuel := by
            have := sizeList_pos t
            simp [stmtSize] at hsz; omega
          simp only [ihT t ht, ihT e he, ok_bind, branchIsTau_eq, set_append_mid,
            deleteAt_append]
          by_cases hb : (isTauSeq (cleanSeq r.found t) && isTauSeq (cleanSeq r.found e)) = true
          · have hb' := hb
            simp only [cleanSeq] at hb'
            simp [hb, hb', ihL _ _ hrest, cleanList, cleanStmt]
          · have hb' := hb
            simp only [cleanSeq] at hb'
            simp [hb, hb', keep _ _ _ hrest, cleanList, cleanStmt, cleanSeq]
        | SelectStatement cs =>
          have hcs : ∀ c ∈ cs, r.traverse fuel c = .ok (cleanSeq r.found c) := by
            intro c hc
            have := sizeCases_mem cs c hc
            apply ihT
            simp [stmtSize] at hsz; omega
          have hmap : (cs.map (cleanSeq r.found)).map orTau = cs.map (cleanSeq r.found) := by
            simp [cleanSeq, orTau_orTau]
          simp only [mapM_ok _ _ cs hcs, ok_bind, selectFlags_eq, hmap, set_append_mid,
            deleteAt_append, Bool.true_and, Bool.false_or]
          by_cases hb : ((cs.map (cleanSeq r.found)).all isTauSeq) = true
          · have hb' := hb
            rw [← cleanCases_eq_map] at hb'
            simp [hb, hb', ihL _ _ hrest, cleanList, cleanStmt]
          · have hb' := hb
            rw [← cleanCases_eq_map] at hb'
            simp [hb, hb', keep _ _ _ hrest, cleanList, cleanStmt, cleanCases_eq_map]
        | CallStatement n ps =>
          by_cases hd : r.found n = true
          · simp [hd, keep _ _ _ hrest, cleanList, cleanStmt]
          · simp [hd, deleteAt_append, ihL _ _ hrest, cleanList, cleanStmt]
        | SpawnStatement n ps =>
          by_cases hd : r.found n = true
          · simp [hd, keep _ _ _ hrest, cleanList, cleanStmt]
          · simp [hd, deleteAt_append, ihL _ _ hrest, cleanList, cleanStmt]
        | _ => simp [keep _ _ _ hrest, cleanList, cleanStmt]

theorem traverse_eq_cleanSeq (r : undefRemover) (fuel : Nat) (stmts : List Statement)
    (h : sizeList stmts < fuel) : r.traverse fuel stmts = .ok (cleanSeq r.found stmts) :=
  (traverse_clean_aux r fuel).1 stmts h

theorem traverseLoop_eq_cleanList (r : undefRemover) (fuel : Nat) (ss : List Statement)
    (h : sizeList ss ≤ fuel) : r.traverseLoop fuel ss 0 = .ok (cleanList r.found ss) := by
  have := (traverse_clean_aux r fuel).2 [] ss h
  simpa using this

theorem run_eq_cleanSeq (r : undefRemover) (stmts : List Statement) :
    r.run stmts = .ok (cleanSeq r.found stmts) :=
  traverse_eq_cleanSeq r _ stmts (Nat.lt_succ_self _)

theorem found_iff (p : Program) (n : String) :
    (undefRemover.mk p).found n = true ↔ n ∈ names p := by
  simp [undefRemover.found, Program.Function, names, List.find?_isSome]

theorem found_congr (p q : Program) (h : names p = names q) :
    (undefRemover.mk p).found = (undefRemover.mk q).found := by
  funext n
  have h1 := found_iff p n
  have h2 := found_iff q n
  rw [h] at h1
  cases hp : (undefRemover.mk p).found n <;> cases hq : (undefRemover.mk q).found n <;>
    simp_all

theorem RemoveLoop_eq (d : String → Bool) : ∀ (todo done : List Function),
    (undefRemover.mk { Funcs := done ++ todo }).found = d →
    RemoveLoop todo.length done.length { Funcs := done ++ todo }
      = .ok { Funcs := done ++ todo.map (fun f => withStmts f (cleanSeq d f.Stmts)) } := by
  intro todo
  induction todo with
  | nil => intro done _; simp [RemoveLoop]; rfl
  | cons f todo ih =>
    intro done hd
    have hnames : names { Funcs := (done ++ [withStmts f (cleanSeq d f.Stmts)]) ++ todo }
        = names { Funcs := done ++ f :: todo } := by
      simp [names, withStmts]
    have hd' := (found_congr _ _ hnames).trans hd
    have := ih (done ++ [withStmts f (cleanSeq d f.Stmts)]) hd'
    simp only [List.length_cons, RemoveLoop, index_append, ok_bind, run_eq_cleanSeq, hd]
    simp at this
    simpa using this

theorem Remove_eq_cleanProgram (p : Program) : Remove p = .ok (cleanProgram p) := by
  have := RemoveLoop_eq (undefRemover.mk p).found p.Funcs [] (by simp)
  simpa [Remove, cleanProgram] using this


/-! ## Induction over statement trees -/

theorem stmt_induction {P : Statement → Prop} {Q : List Statement → Prop}
    (hleaf : ∀ s, isLeaf s = true → P s)
    (hIf : ∀ t e, Q t → Q e → P (.IfStatement t e))
    (hIfFor : ∀ t e, Q t → Q e → P (.IfForStatement t e))
    (hSel : ∀ cs, (∀ c ∈ cs, Q c) → P (.SelectStatement cs))
    (hnil : Q [])
    (hcons : ∀ s ss, P s → Q ss → Q (s :: ss)) :
    (∀ s, P s) ∧ (∀ l, Q l) := by
  have hR0 : ∀ c ∈ ([] : List (List Statement)), Q c := by simp
  have hR1 : ∀ (c : List Statement) (cs : List (List Statement)), Q c → (∀ x ∈ cs, Q x) →
      ∀ x ∈ c :: cs, Q x := by
    intro c cs hc hcs x hx
    rcases List.mem_cons.mp hx with h | h
    · exact h ▸ hc
    · exact hcs x h
  constructor
  · intro s
    exact @Statement.rec P Q (fun cs => ∀ c ∈ cs, Q c)
      (fun _ _ => hleaf _ rfl) (fun _ _ => hleaf _ rfl) (fun _ => hleaf _ rfl)
      (fun _ => hleaf _ rfl) (fun _ => hleaf _ rfl) (fun _ _ _ => hleaf _ rfl) (hleaf _ rfl)
      (fun t e ht he => hIf t e ht he) (fun t e ht he => hIfFor t e ht he)
      (fun cs h => hSel cs h)
      (fun _ => hleaf _ rfl) (fun _ => hleaf _ rfl) (fun _ => hleaf _ rfl)
      (fun _ => hleaf _ rfl) (fun _ => hleaf _ rfl) (fun _ => hleaf _ rfl)
      (fun _ => hleaf _ rfl) (fun _ => hleaf _ rfl) (fun _ => hleaf _ rfl)
      hnil (fun s ss hs hss => hcons s ss hs hss) hR0 hR1 s
  · intro l
    exact @Statement.rec_1 P Q (fun cs => ∀ c ∈ cs, Q c)
      (fun _ _ => hleaf _ rfl) (fun _ _ => hleaf _ rfl) (fun _ => hleaf _ rfl)
      (fun _ => hleaf _ rfl) (fun _ => hleaf _ rfl) (fun _ _ _ => hleaf _ rfl) (hleaf _ rfl)
      (fun t e ht he => hIf t e ht he) (fun t e ht he => hIfFor t e ht he)
      (fun cs h => hSel cs h)
      (fun _ => hleaf _ rfl) (fun _ => hleaf _ rfl) (fun _ => hleaf _ rfl)
      (fun _ => hleaf _ rfl) (fun _ => hleaf _ rfl) (fun _ => hleaf _ rfl)
      (fun _ => hleaf _ rfl) (fun _ => hleaf _ rfl) (fun _ => hleaf _ rfl)
      hnil (fun s ss hs hss => hcons s ss hs hss) hR0 hR1 l

/-! ## Facts about the reference semantics -/

theorem cleanList_eq_filterMap (d : String → Bool) (l : List Statement) :
    cleanList d l = l.filterMap (cleanStmt d) := by
  induction l with
  | nil => simp [cleanList]
  | cons s ss ih =>
    cases h : cleanStmt d s <;> simp [cleanList, h, ih, List.filterMap_cons]

theorem cleanList_append (d : String → Bool) (a b : List Statement) :
    cleanList d (a ++ b) = cleanList d a ++ cleanList d b := by
  simp [cleanList_eq_filterMap]

theorem mem_cleanList (d : String → Bool) (l : List Statement) (s' : Statement) :
    s' ∈ cleanList d l ↔ ∃ s ∈ l, cleanStmt d s = some s' := by
  simp [cleanList_eq_filterMap]

theorem cleanSeq_ne_nil (d : String → Bool) (l : List Statement) : cleanSeq d l ≠ [] := by
  unfold cleanSeq orTau
  split
  · simp
  · intro h; simp_all

theorem mem_cleanSeq (d : String → Bool) (l : List Statement) (s' : Statement)
    (h : s' ∈ cleanSeq d l) : s' = .TauStatement ∨ s' ∈ cleanList d l := by
  unfold cleanSeq orTau at h
  split at h
  · left; simpa using h
  · right; exact h

theorem cleanStmt_leaf (d : String → Bool) (s s' : Statement) (hl : isLeaf s = true)
    (h : cleanStmt d s = some s') : s' = s := by
  cases s <;> simp_all [isLeaf, cleanStmt]

theorem cleanStmt_isLeaf (d : String → Bool) (s s' : Statement)
    (h : cleanStmt d s = some s') : isLeaf s' = isLeaf s := by
  cases s <;> simp [cleanStmt] at h <;> (try obtain ⟨-, h⟩ := h) <;> (try subst h) <;> rfl

theorem nested_iff (x l : List Statement) :
    Nested x l ↔ x = l ∨ ∃ s ∈ l, Deep x s := by
  constructor
  · intro h
    cases h with
    | self => exact Or.inl rfl
    | ifThen hm hn => exact Or.inr ⟨_, hm, Or.inl hn⟩
    | ifElse hm hn => exact Or.inr ⟨_, hm, Or.inr hn⟩
    | ifForThen hm hn => exact Or.inr ⟨_, hm, Or.inl hn⟩
    | ifForElse hm hn => exact Or.inr ⟨_, hm, Or.inr hn⟩
    | selectCase hm hc hn => exact Or.inr ⟨_, hm, _, hc, hn⟩
  · rintro (rfl | ⟨s, hm, hd⟩)
    · exact Nested.self _
    · cases s <;> simp only [Deep] at hd
      case IfStatement t e =>
        rcases hd with h | h
        · exact Nested.ifThen hm h
        · exact Nested.ifElse hm h
      case IfForStatement t e =>
        rcases hd with h | h
        · exact Nested.ifForThen hm h
        · exact Nested.ifForElse hm h
      case SelectStatement cs =>
        obtain ⟨c, hc, h⟩ := hd
        exact Nested.selectCase hm hc h

theorem mem_cleanSeq_of_mem_cleanList (d : String → Bool) (l : List Statement) (s : Statement)
    (h : s ∈ cleanList d l) : s ∈ cleanSeq d l := by
  unfold cleanSeq orTau
  split
  · rename_i h0
    rw [List.length_eq_zero] at h0
    rw [h0] at h; simp at h
  · exact h

theorem nested_clean_aux (d : String → Bool) :
    (∀ s, ∀ s', cleanStmt d s = some s' → ∀ x, Deep x s' → ∃ l', x = cleanSeq d l') ∧
    (∀ l, ∀ x, Nested x (cleanSeq d l) → ∃ l', x = cleanSeq d l') := by
  apply stmt_induction
  · intro s hl s' h x hx
    have := cleanStmt_leaf d s s' hl h
    subst this
    cases s' <;> simp [isLeaf] at hl <;> simp [Deep] at hx
  · intro t e ht he s' h x hx
    simp only [cleanStmt] at h
    split at h
    · simp at h
    · simp only [Option.some.injEq] at h
      subst h
      simp only [Deep] at hx
      rcases hx with hx | hx
      · exact ht x hx
      · exact he x hx
  · intro t e ht he s' h x hx
    simp only [cleanStmt] at h
    split at h
    · simp at h
    · simp only [Option.some.injEq] at h
      subst h
      simp only [Deep] at hx
      rcases hx with hx | hx
      · exact ht x hx
      · exact he x hx
  · intro cs hcs s' h x hx
    simp only [cleanStmt] at h
    split at h
    · simp at h
    · simp only [Option.some.injEq] at h
      subst h
      simp only [Deep, cleanCases_eq_map] at hx
      obtain ⟨c', hc', hn⟩ := hx
      obtain ⟨c, hc, rfl⟩ := List.mem_map.mp hc'
      exact hcs c hc x hn
  · intro x hx
    rw [nested_iff] at hx
    rcases hx with rfl | ⟨s, hm, hd⟩
    · exact ⟨[], rfl⟩
    · simp [cleanSeq, cleanList, orTau] at hm
      subst hm
      simp [Deep] at hd
  · intro s ss hs hss x hx
    rw [nested_iff] at hx
    rcases hx with rfl | ⟨s2, hm, hd⟩
    · exact ⟨_, rfl⟩
    · rcases mem_cleanSeq _ _ _ hm with rfl | hm'
      · simp [Deep] at hd
      · rw [mem_cleanList] at hm'
        obtain ⟨s0, hs0, hc⟩ := hm'
        rcases List.mem_cons.mp hs0 with rfl | hs0
        · exact hs _ hc x hd
        · apply hss x
          rw [nested_iff]
          right
          exact ⟨s2, mem_cleanSeq_of_mem_cleanList d ss s2
            ((mem_cleanList d ss s2).2 ⟨s0, hs0, hc⟩), hd⟩

/-- Every statement sequence found in a cleaned sequence, at any depth, is
itself the cleaning of some sequence. -/
theorem nested_cleanSeq (d : String → Bool) (l x : List Statement)
    (h : Nested x (cleanSeq d l)) : ∃ l', x = cleanSeq d l' :=
  (nested_clean_aux d).2 l x h

theorem callTarget_cleanSeq (d : String → Bool) (l : List Statement) (s : Statement)
    (n : String) (hs : s ∈ cleanSeq d l) (hn : callTarget s = some n) : d n = true := by
  rcases mem_cleanSeq d l s hs with rfl | hm
  · simp [callTarget] at hn
  · obtain ⟨s0, -, hc⟩ := (mem_cleanList d l s).1 hm
    cases s0 <;> simp [cleanStmt] at hc <;> (try obtain ⟨hd, hc⟩ := hc) <;>
      (try subst hc) <;> simp_all [callTarget]

theorem names_cleanProgram (p : Program) : names (cleanProgram p) = names p := by
  simp [names, cleanProgram, withStmts, Function.comp_def]

theorem mem_cleanProgram (p : Program) (f : Function) (h : f ∈ (cleanProgram p).Funcs) :
    ∃ f0 ∈ p.Funcs, f = withStmts f0 (cleanSeq (undefRemover.mk p).found f0.Stmts) := by
  simp only [cleanProgram, List.mem_map] at h
  obtain ⟨f0, h0, rfl⟩ := h
  exact ⟨f0, h0, rfl⟩

theorem nested_cleanProgram (p : Program) (f : Function) (x : List Statement)
    (hf : f ∈ (cleanProgram p).Funcs) (hx : Nested x f.Stmts) :
    ∃ l', x = cleanSeq (undefRemover.mk p).found l' := by
  obtain ⟨f0, -, rfl⟩ := mem_cleanProgram p f hf
  exact nested_cleanSeq _ _ x hx

theorem simplify_eq_remove (p : Program) :
    ∃ p', migoutil.SimplifyProgram p = deadcall.Remove p' ∧ p'.Funcs.Sublist p.Funcs := by
  unfold migoutil.SimplifyProgram
  cases h : p.Function "\"main\".main" with
  | none => exact ⟨_, rfl, by simp only [taufunc.Find]; exact List.filter_sublist _⟩
  | some mainmain =>
    refine ⟨_, rfl, ?_⟩
    simp only [unused.Remove, taufunc.Find]
    exact (List.filter_sublist _).trans (List.filter_sublist _)

theorem calls_found_cleanProgram (p : Program) (f : Function) (x : List Statement)
    (s : Statement) (n : String) (hf : f ∈ (cleanProgram p).Funcs) (hx : Nested x f.Stmts)
    (hs : s ∈ x) (hn : callTarget s = some n) : (undefRemover.mk p).found n = true := by
  obtain ⟨l', rfl⟩ := nested_cleanProgram p f x hf hx
  exact callTarget_cleanSeq _ l' s n hs hn

/-- C1: after `deadcall.Remove` (and so after `SimplifyProgram`, which ends
with it) every `Call` and `Spawn` found at any nesting depth of any function
body names a function of the function table; `Remove` leaves the names of
the table as they were. -/
theorem remove_leaves_no_dangling_call (p : Program) :
    (∃ q, deadcall.Remove p = .ok q ∧ names q = names p ∧
      ∀ f ∈ q.Funcs, ∀ x, Nested x f.Stmts → ∀ s ∈ x, ∀ n, callTarget s = some n →
        (p.Function n).isSome = true) ∧
    (∃ q, migoutil.SimplifyProgram p = .ok q ∧
      ∀ f ∈ q.Funcs, ∀ x, Nested x f.Stmts → ∀ s ∈ x, ∀ n, callTarget s = some n →
        (q.Function n).isSome = true) := by
  constructor
  · refine ⟨cleanProgram p, Remove_eq_cleanProgram p, names_cleanProgram p, ?_⟩
    intro f hf x hx s hs n hn
    exact calls_found_cleanProgram p f x s n hf hx hs hn
  · obtain ⟨p', h1, -⟩ := simplify_eq_remove p
    refine ⟨cleanProgram p', by rw [h1]; exact Remove_eq_cleanProgram p', ?_⟩
    intro f hf x hx s hs n hn
    have := calls_found_cleanProgram p' f x s n hf hx hs hn
    rw [found_congr _ _ (names_cleanProgram p').symm] at this
    exact this

/-- C2: after `deadcall.Remove` every statement sequence of the program, at
any nesting depth, has at least one statement; for every sequence the scan
loop ends with the kept statements and `traverse` returns them, or `[Tau]`
when none is kept, as for the empty sequence. -/
theorem remove_leaves_no_empty_sequence (p : Program) :
    (∃ q, deadcall.Remove p = .ok q ∧
      ∀ f ∈ q.Funcs, ∀ x, Nested x f.Stmts → x ≠ []) ∧
    (∀ ss : List Statement, ∃ kept,
      (undefRemover.mk p).traverseLoop (sizeList ss) ss 0 = .ok kept ∧
      (undefRemover.mk p).run ss
        = .ok (if kept.length = 0 then [Statement.TauStatement] else kept)) ∧
    (undefRemover.mk p).run [] = .ok [Statement.TauStatement] := by
  refine ⟨⟨cleanProgram p, Remove_eq_cleanProgram p, ?_⟩, ?_, ?_⟩
  · intro f hf x hx
    obtain ⟨l', rfl⟩ := nested_cleanProgram p f x hf hx
    exact cleanSeq_ne_nil _ _
  · intro ss
    exact ⟨_, traverseLoop_eq_cleanList _ _ ss (Nat.le_refl _), run_eq_cleanSeq _ ss⟩
  · exact run_eq_cleanSeq _ []

/-! ## Cleaning a cleaned tree changes nothing -/

theorem cleanSeq_idem_of (d : String → Bool) (l : List Statement)
    (h : cleanList d (cleanList d l) = cleanList d l) :
    cleanSeq d (cleanSeq d l) = cleanSeq d l := by
  cases hl : cleanList d l with
  | nil => simp [cleanSeq, hl, orTau, cleanList, cleanStmt]
  | cons a b =>
    rw [hl] at h
    simp [cleanSeq, hl, orTau, h]

theorem clean_idem_aux (d : String → Bool) :
    (∀ s, ∀ s', cleanStmt d s = some s' → cleanStmt d s' = some s') ∧
    (∀ l, cleanList d (cleanList d l) = cleanList d l) := by
  apply stmt_induction
  · intro s hl s' h
    have := cleanStmt_leaf d s s' hl h
    subst this
    exact h
  · intro t e ht he s' h
    have h1 := cleanSeq_idem_of d t ht
    have h2 := cleanSeq_idem_of d e he
    simp only [cleanSeq] at h1 h2
    simp only [cleanStmt] at h
    split at h
    · simp at h
    · rename_i hb
      simp only [Option.some.injEq] at h
      subst h
      simp only [cleanStmt, h1, h2, hb]
      simp
  · intro t e ht he s' h
    have h1 := cleanSeq_idem_of d t ht
    have h2 := cleanSeq_idem_of d e he
    simp only [cleanSeq] at h1 h2
    simp only [cleanStmt] at h
    split at h
    · simp at h
    · rename_i hb
      simp only [Option.some.injEq] at h
      subst h
      simp only [cleanStmt, h1, h2, hb]
      simp
  · intro cs hcs s' h
    have h1 : cleanCases d (cleanCases d cs) = cleanCases d cs := by
      simp only [cleanCases_eq_map, List.map_map]
      apply List.map_congr_left
      intro c hc
      exact cleanSeq_idem_of d c (hcs c hc)
    simp only [cleanStmt] at h
    split at h
    · simp at h
    · rename_i hb
      simp only [Option.some.injEq] at h
      subst h
      simp only [cleanStmt, h1, hb]
      simp
  · simp [cleanList]
  · intro s ss hs hss
    cases h : cleanStmt d s with
    | none => simpa [cleanList, h] using hss
    | some s' => simp [cleanList, h, hs s' h, hss]

theorem cleanSeq_idem (d : String → Bool) (l : List Statement) :
    cleanSeq d (cleanSeq d l) = cleanSeq d l :=
  cleanSeq_idem_of d l ((clean_idem_aux d).2 l)

theorem cleanProgram_idem (p : Program) : cleanProgram (cleanProgram p) = cleanProgram p := by
  have hf := found_congr _ _ (names_cleanProgram p)
  simp only [cleanProgram] at hf ⊢
  simp only [hf, List.map_map, Program.mk.injEq]
  apply List.map_congr_left
  intro f _
  simp [withStmts, cleanSeq_idem]

theorem length_cleanProgram (p : Program) : (cleanProgram p).Funcs.length = p.Funcs.length := by
  simp [cleanProgram]

/-! ## The pipeline -/

theorem mem_mark (marked more : List String) (n : String) (h : n ∈ marked) :
    n ∈ unused.mark marked more := by
  unfold unused.mark
  induction more generalizing marked with
  | nil => simpa using h
  | cons m more ih =>
    simp only [List.foldl_cons]
    apply ih
    split
    · exact h
    · exact List.mem_append_left _ h

theorem mem_reach (prog : Program) (k : Nat) (marked : List String) (n : String)
    (h : n ∈ marked) : n ∈ unused.reach prog k marked := by
  induction k generalizing marked with
  | zero => simpa [unused.reach] using h
  | succ k ih =>
    simp only [unused.reach]
    exact ih _ (mem_mark _ _ n h)

theorem entry_survives_pruning (p : Program) (mainmain : Function)
    (h : p.Function "\"main\".main" = some mainmain) :
    "\"main\".main" ∈ names
      (unused.Remove (taufunc.Find p (taufunc.Mode.RemoveExcept mainmain)) mainmain) := by
  have hmem : mainmain ∈ p.Funcs := List.mem_of_find?_eq_some h
  have hname : mainmain.Name = "\"main\".main" := by
    have := List.find?_some h
    simpa using this
  simp only [names, unused.Remove, taufunc.Find, List.mem_map, List.mem_filter]
  refine ⟨mainmain, ⟨⟨hmem, by simp⟩, ?_⟩, hname⟩
  have hr := mem_reach (taufunc.Find p (taufunc.Mode.RemoveExcept mainmain))
    (taufunc.Find p (taufunc.Mode.RemoveExcept mainmain)).Funcs.length [mainmain.Name]
    mainmain.Name (List.mem_singleton.2 rfl)
  simpa [unused.reachable, taufunc.Find] using hr

theorem program_ext (a b : Program) (h : a.Funcs = b.Funcs) : a = b := by
  cases a; cases b; simp_all

/-- C3, as stated, fails: `vacuousSelect` has unique names and no dangling
call.  In the first run the silent-function pass deletes `w` and keeps `f`,
whose body holds a select; the cleanup then empties both cases of that
select, deletes it and leaves `f` with the body `[Tau]`.  The second run
finds `f` silent and deletes it with the call to it. -/
theorem simplify_twice_differs :
    (names vacuousSelect).Nodup ∧
    taufunc.silent vacuousSelect = ["w"] ∧
    (undefRemover.mk vacuousSelectOnce).run
        [.SelectStatement [[.CallStatement "w" []], [.CallStatement "w" []]]]
      = .ok [Statement.TauStatement] ∧
    migoutil.SimplifyProgram vacuousSelect = .ok vacuousSelectOnce ∧
    taufunc.silent vacuousSelectOnce = ["f"] ∧
    migoutil.SimplifyProgram vacuousSelectOnce = .ok vacuousSelectTwice ∧
    names vacuousSelectOnce = ["\"main\".main", "f"] ∧
    names vacuousSelectTwice = ["\"main\".main"] ∧
    vacuousSelectTwice ≠ vacuousSelectOnce := by
  refine ⟨by decide, rfl, rfl, rfl, rfl, rfl, rfl, rfl, ?_⟩
  intro h
  have := congrArg (fun q => q.Funcs.length) h
  simp [vacuousSelectTwice, vacuousSelectOnce] at this

/-- C3, amended: both runs of the pipeline return, and the second run
returns the program it was given unless it deletes a function: when the
function table after the second run is as long as after the first, the two
programs are equal. -/
theorem simplify_twice_same_unless_deleted (p : Program) :
    ∃ q q', migoutil.SimplifyProgram p = .ok q ∧ migoutil.SimplifyProgram q = .ok q' ∧
      (q'.Funcs.length = q.Funcs.length → q' = q) := by
  obtain ⟨p1, h1, -⟩ := simplify_eq_remove p
  obtain ⟨p2, h2, hsub⟩ := simplify_eq_remove (cleanProgram p1)
  refine ⟨cleanProgram p1, cleanProgram p2, ?_, ?_, ?_⟩
  · rw [h1]; exact Remove_eq_cleanProgram p1
  · rw [h2]; exact Remove_eq_cleanProgram p2
  · intro hlen
    rw [length_cleanProgram] at hlen
    have hfun : p2.Funcs = (cleanProgram p1).Funcs := hsub.eq_of_length hlen
    have hp2 : p2 = cleanProgram p1 := program_ext _ _ hfun
    rw [hp2, cleanProgram_idem]

/-- Witness for C3, amended: on scenario A the second run deletes no
function, and it returns the program it was given. -/
theorem simplify_twice_same_unless_deleted_witness :
    ∃ q q', migoutil.SimplifyProgram scenarioA = .ok q ∧
      migoutil.SimplifyProgram q = .ok q' ∧
      q'.Funcs.length = q.Funcs.length ∧ q' = q := by
  obtain ⟨q, q', h1, h2, h3⟩ := simplify_twice_same_unless_deleted scenarioA
  have e1 : migoutil.SimplifyProgram scenarioA = .ok scenarioAOnce := rfl
  have e2 : migoutil.SimplifyProgram scenarioAOnce = .ok scenarioAOnce := rfl
  have hq : q = scenarioAOnce := Except.ok.inj (h1.symm.trans e1)
  have hq' : q' = scenarioAOnce := by
    rw [hq] at h2
    exact Except.ok.inj (h2.symm.trans e2)
  have hlen : q'.Funcs.length = q.Funcs.length := by rw [hq, hq']
  exact ⟨q, q', h1, h2, hlen, h3 hlen⟩

/-- C4: when the program has a function named `"main".main` (quotes
included), `SimplifyProgram` returns a program whose function table still
has it, whatever its body is. -/
theorem simplify_keeps_entry (p : Program)
    (h : (p.Function "\"main\".main").isSome = true) :
    ∃ q, migoutil.SimplifyProgram p = .ok q ∧ (q.Function "\"main\".main").isSome = true := by
  obtain ⟨mainmain, hm⟩ := Option.isSome_iff_exists.mp h
  have hmem := entry_survives_pruning p mainmain hm
  refine ⟨cleanProgram
    (unused.Remove (taufunc.Find p (taufunc.Mode.RemoveExcept mainmain)) mainmain), ?_, ?_⟩
  · simp only [migoutil.SimplifyProgram, hm]
    exact Remove_eq_cleanProgram _
  · rw [← names_cleanProgram] at hmem
    exact (found_iff _ _).2 hmem

/-- Witness for C4: the entry of `silentEntry` only calls a silent function,
and it is still there after the pipeline. -/
theorem simplify_keeps_entry_witness :
    (silentEntry.Function "\"main\".main").isSome = true ∧
    ∃ q, migoutil.SimplifyProgram silentEntry = .ok q ∧
      (q.Function "\"main\".main").isSome = true :=
  ⟨rfl, simplify_keeps_entry silentEntry rfl⟩

/-! ## What the scan does with each kind of statement -/

theorem isTauSeq_iff (x : List Statement) : isTauSeq x = true ↔ x = [Statement.TauStatement] := by
  constructor
  · intro h
    match x with
    | [] => simp [isTauSeq] at h
    | [s] => cases s <;> simp [isTauSeq] at h ⊢
    | _ :: _ :: _ => simp [isTauSeq] at h
  · rintro rfl; rfl

theorem run_eq_iff (r : undefRemover) (l x : List Statement) :
    r.run l = .ok x ↔ cleanSeq r.found l = x := by
  rw [run_eq_cleanSeq]
  exact ⟨fun h => Except.ok.inj h, fun h => by rw [h]⟩

theorem filter_call_orTau (x : List Statement) :
    (orTau x).filter (fun s => (callTarget s).isSome) = x.filter (fun s => (callTarget s).isSome) := by
  cases x <;> simp [orTau, callTarget]

theorem cleanStmt_call_none (d : String → Bool) (s : Statement)
    (h : cleanStmt d s = none) : isFoundCall d s = false := by
  cases s <;> simp [cleanStmt] at h <;> simp [isFoundCall, callTarget, h]

theorem cleanStmt_call_some (d : String → Bool) (s s' : Statement)
    (h : cleanStmt d s = some s') : (callTarget s').isSome = isFoundCall d s := by
  cases s <;> simp [cleanStmt] at h <;> (try obtain ⟨hd, h⟩ := h) <;> (try subst h) <;>
    simp_all [isFoundCall, callTarget]

theorem cleanStmt_call_same (d : String → Bool) (s s' : Statement)
    (h : cleanStmt d s = some s') (hc : isFoundCall d s = true) : s' = s := by
  cases s <;> simp [isFoundCall, callTarget] at hc <;> simp [cleanStmt, hc] at h <;> simp [h]

theorem filter_call_cleanList (d : String → Bool) (l : List Statement) :
    (cleanList d l).filter (fun s => (callTarget s).isSome) = l.filter (isFoundCall d) := by
  induction l with
  | nil => simp [cleanList]
  | cons s ss ih =>
    cases h : cleanStmt d s with
    | none => simp [cleanList, h, ih, List.filter_cons, cleanStmt_call_none d s h]
    | some s' =>
      simp only [cleanList, h, List.filter_cons, cleanStmt_call_some d s s' h, ih]
      split
      · rename_i hc
        rw [cleanStmt_call_same d s s' h hc]
      · rfl

theorem call_mem_cleanSeq (d : String → Bool) (l : List Statement) (s : Statement) (n : String)
    (hs : s ∈ l) (hn : callTarget s = some n) : s ∈ cleanSeq d l ↔ d n = true := by
  constructor
  · intro h; exact callTarget_cleanSeq d l s n h hn
  · intro h
    apply mem_cleanSeq_of_mem_cleanList
    rw [mem_cleanList]
    refine ⟨s, hs, ?_⟩
    cases s <;> simp [callTarget] at hn <;> subst hn <;> simp [cleanStmt, h]

/-- C5: `traverse` deletes a `Call` or `Spawn` exactly when its target is
not in the function table: the calls and spawns of the result are, in order
and with their multiplicity, those of the input whose target is found, and a
call or spawn of the input is in the result iff its target is found.  With
`workwork` and `work$1` undefined and `work$2` defined, the body of `work`
becomes the call of `work$2` alone. -/
theorem traverse_deletes_exactly_undefined_calls :
    (∀ (r : undefRemover) (ss : List Statement), ∃ out, r.run ss = .ok out ∧
      out.filter (fun s => (callTarget s).isSome) = ss.filter (isFoundCall r.found) ∧
      ∀ s ∈ ss, ∀ n, callTarget s = some n → (s ∈ out ↔ r.found n = true)) ∧
    (undefRemover.mk scenarioBPruned).run
        [.CallStatement "workwork" [], .SpawnStatement "work$1" [⟨"ch", "ch"⟩],
          .CallStatement "work$2" [⟨"ch", "ch"⟩]]
      = .ok [.CallStatement "work$2" [⟨"ch", "ch"⟩]] := by
  refine ⟨?_, rfl⟩
  intro r ss
  refine ⟨_, run_eq_cleanSeq r ss, ?_, ?_⟩
  · rw [cleanSeq, filter_call_orTau, filter_call_cleanList]
  · intro s hs n hn
    exact call_mem_cleanSeq r.found ss s n hs hn

theorem cleanSeq_mid_deleted (d : String → Bool) (pre post : List Statement) (s : Statement)
    (h : cleanStmt d s = none) :
    cleanSeq d (pre ++ s :: post) = orTau (cleanList d pre ++ cleanList d post) := by
  simp [cleanSeq, cleanList_append, cleanList, h]

theorem cleanSeq_mid_kept (d : String → Bool) (pre post : List Statement) (s s' : Statement)
    (h : cleanStmt d s = some s') :
    cleanSeq d (pre ++ s :: post) = cleanList d pre ++ s' :: cleanList d post := by
  simp [cleanSeq, cleanList_append, cleanList, h, orTau]

/-- C6: when both branches of an `If` or `IfFor` come out of `traverse` as
exactly `[Tau]`, the statement is deleted: the result is what the scan keeps
of the statements before it followed by what it keeps of the statements
after it (or `[Tau]` when that is empty), which is also the result for the
sequence without the statement. -/
theorem traverse_deletes_if_of_two_tau (r : undefRemover) (pre post t e : List Statement)
    (ht : r.run t = .ok [Statement.TauStatement])
    (he : r.run e = .ok [Statement.TauStatement]) :
    ∃ pre' post',
      r.traverseLoop (sizeList pre) pre 0 = .ok pre' ∧
      r.traverseLoop (sizeList post) post 0 = .ok post' ∧
      r.run (pre ++ .IfStatement t e :: post) = .ok (orTau (pre' ++ post')) ∧
      r.run (pre ++ .IfForStatement t e :: post) = .ok (orTau (pre' ++ post')) ∧
      r.run (pre ++ post) = .ok (orTau (pre' ++ post')) := by
  rw [run_eq_iff] at ht he
  simp only [cleanSeq] at ht he
  refine ⟨_, _, traverseLoop_eq_cleanList r _ pre (Nat.le_refl _),
    traverseLoop_eq_cleanList r _ post (Nat.le_refl _), ?_, ?_, ?_⟩
  · rw [run_eq_cleanSeq, cleanSeq_mid_deleted]
    simp [cleanStmt, ht, he, isTauSeq]
  · rw [run_eq_cleanSeq, cleanSeq_mid_deleted]
    simp [cleanStmt, ht, he, isTauSeq]
  · rw [run_eq_cleanSeq, cleanSeq, cleanList_append]

/-- Witness for C6: in scenario C a choice between a call of the undefined
`main.xx#2` and nothing is deleted from between a send and a receive. -/
theorem traverse_deletes_if_of_two_tau_witness :
    (undefRemover.mk scenarioC).run [.CallStatement "main.xx#2" []]
      = .ok [Statement.TauStatement] ∧
    (undefRemover.mk scenarioC).run [] = .ok [Statement.TauStatement] ∧
    ∃ pre' post',
      (undefRemover.mk scenarioC).traverseLoop (sizeList [.SendStatement "a"])
        [.SendStatement "a"] 0 = .ok pre' ∧
      (undefRemover.mk scenarioC).traverseLoop (sizeList [.RecvStatement "b"])
        [.RecvStatement "b"] 0 = .ok post' ∧
      (undefRemover.mk scenarioC).run ([.SendStatement "a"] ++
        .IfStatement [.CallStatement "main.xx#2" []] [] :: [.RecvStatement "b"])
        = .ok (orTau (pre' ++ post')) ∧
      (undefRemover.mk scenarioC).run ([.SendStatement "a"] ++
        .IfForStatement [.CallStatement "main.xx#2" []] [] :: [.RecvStatement "b"])
        = .ok (orTau (pre' ++ post')) ∧
      (undefRemover.mk scenarioC).run ([.SendStatement "a"] ++ [.RecvStatement "b"])
        = .ok (orTau (pre' ++ post')) :=
  ⟨rfl, rfl, traverse_deletes_if_of_two_tau (undefRemover.mk scenarioC)
    [.SendStatement "a"] [.RecvStatement "b"] [.CallStatement "main.xx#2" []] [] rfl rfl⟩

/-- C7: when the branches of an `If` or `IfFor` do not both come out of
`traverse` as exactly `[Tau]`, the statement is kept where it was, between
what the scan keeps of the statements before it and after it, with `Then`
and `Else` replaced by the results of `traverse`. -/
theorem traverse_keeps_if_unless_two_tau (r : undefRemover) (pre post t e : List Statement)
    (h : ¬ (r.run t = .ok [Statement.TauStatement] ∧ r.run e = .ok [Statement.TauStatement])) :
    ∃ t' e' pre' post',
      r.run t = .ok t' ∧ r.run e = .ok e' ∧
      r.traverseLoop (sizeList pre) pre 0 = .ok pre' ∧
      r.traverseLoop (sizeList post) post 0 = .ok post' ∧
      r.run (pre ++ .IfStatement t e :: post) = .ok (pre' ++ .IfStatement t' e' :: post') ∧
      r.run (pre ++ .IfForStatement t e :: post)
        = .ok (pre' ++ .IfForStatement t' e' :: post') := by
  simp only [run_eq_iff] at h
  have hb : ¬ ((isTauSeq (orTau (cleanList r.found t)) &&
      isTauSeq (orTau (cleanList r.found e))) = true) := by
    intro hb
    rw [Bool.and_eq_true, isTauSeq_iff, isTauSeq_iff] at hb
    exact h hb
  refine ⟨_, _, _, _, run_eq_cleanSeq r t, run_eq_cleanSeq r e,
    traverseLoop_eq_cleanList r _ pre (Nat.le_refl _),
    traverseLoop_eq_cleanList r _ post (Nat.le_refl _), ?_, ?_⟩
  · rw [run_eq_cleanSeq]
    congr 1
    apply cleanSeq_mid_kept
    simp only [cleanStmt, hb]
    rfl
  · rw [run_eq_cleanSeq]
    congr 1
    apply cleanSeq_mid_kept
    simp only [cleanStmt, hb]
    rfl

/-- Witness for C7: scenario C of the tests.  `main.xx` is defined and
`main.xx#2` is not, so the `If` of `main.xx` keeps `send x; spawn main.xx`
as `Then` and gets `[Tau]` as `Else`. -/
theorem traverse_keeps_if_unless_two_tau_witness :
    ¬ ((undefRemover.mk scenarioC).run
          [.SendStatement "x", .SpawnStatement "main.xx" [⟨"y", "y"⟩, ⟨"x", "x"⟩],
            .CallStatement "main.xx#2" [⟨"x", "x"⟩, ⟨"y", "y"⟩]]
          = .ok [Statement.TauStatement] ∧
        (undefRemover.mk scenarioC).run [.CallStatement "main.xx#2" [⟨"x", "x"⟩, ⟨"y", "y"⟩]]
          = .ok [Statement.TauStatement]) ∧
    (∃ t' e' pre' post',
      (undefRemover.mk scenarioC).run
          [.SendStatement "x", .SpawnStatement "main.xx" [⟨"y", "y"⟩, ⟨"x", "x"⟩],
            .CallStatement "main.xx#2" [⟨"x", "x"⟩, ⟨"y", "y"⟩]] = .ok t' ∧
      (undefRemover.mk scenarioC).run [.CallStatement "main.xx#2" [⟨"x", "x"⟩, ⟨"y", "y"⟩]]
        = .ok e' ∧
      (undefRemover.mk scenarioC).traverseLoop (sizeList []) [] 0 = .ok pre' ∧
      (undefRemover.mk scenarioC).traverseLoop (sizeList []) [] 0 = .ok post' ∧
      (undefRemover.mk scenarioC).run ([] ++ .IfStatement
          [.SendStatement "x", .SpawnStatement "main.xx" [⟨"y", "y"⟩, ⟨"x", "x"⟩],
            .CallStatement "main.xx#2" [⟨"x", "x"⟩, ⟨"y", "y"⟩]]
          [.CallStatement "main.xx#2" [⟨"x", "x"⟩, ⟨"y", "y"⟩]] :: [])
        = .ok (pre' ++ .IfStatement t' e' :: post') ∧
      (undefRemover.mk scenarioC).run ([] ++ .IfForStatement
          [.SendStatement "x", .SpawnStatement "main.xx" [⟨"y", "y"⟩, ⟨"x", "x"⟩],
            .CallStatement "main.xx#2" [⟨"x", "x"⟩, ⟨"y", "y"⟩]]
          [.CallStatement "main.xx#2" [⟨"x", "x"⟩, ⟨"y", "y"⟩]] :: [])
        = .ok (pre' ++ .IfForStatement t' e' :: post')) ∧
    (undefRemover.mk scenarioC).run [.IfStatement
          [.SendStatement "x", .SpawnStatement "main.xx" [⟨"y", "y"⟩, ⟨"x", "x"⟩],
            .CallStatement "main.xx#2" [⟨"x", "x"⟩, ⟨"y", "y"⟩]]
          [.CallStatement "main.xx#2" [⟨"x", "x"⟩, ⟨"y", "y"⟩]]]
      = .ok [.IfStatement
          [.SendStatement "x", .SpawnStatement "main.xx" [⟨"y", "y"⟩, ⟨"x", "x"⟩]]
          [.TauStatement]] := by
  have hrun : (undefRemover.mk scenarioC).run
      [.SendStatement "x", .SpawnStatement "main.xx" [⟨"y", "y"⟩, ⟨"x", "x"⟩],
        .CallStatement "main.xx#2" [⟨"x", "x"⟩, ⟨"y", "y"⟩]]
      = .ok [.SendStatement "x", .SpawnStatement "main.xx" [⟨"y", "y"⟩, ⟨"x", "x"⟩]] := rfl
  have hne : ¬ ((undefRemover.mk scenarioC).run
        [.SendStatement "x", .SpawnStatement "main.xx" [⟨"y", "y"⟩, ⟨"x", "x"⟩],
          .CallStatement "main.xx#2" [⟨"x", "x"⟩, ⟨"y", "y"⟩]]
        = .ok [Statement.TauStatement] ∧
      (undefRemover.mk scenarioC).run [.CallStatement "main.xx#2" [⟨"x", "x"⟩, ⟨"y", "y"⟩]]
        = .ok [Statement.TauStatement]) := by
    rintro ⟨h1, -⟩
    have := Except.ok.inj (hrun.symm.trans h1)
    simp at this
  exact ⟨hne, traverse_keeps_if_unless_two_tau (undefRemover.mk scenarioC) [] [] _ _ hne, rfl⟩

/-- C8: when every case of a `Select` with at least one case comes out of
`traverse` as exactly `[Tau]`, the statement is deleted: the result is what
the scan keeps of the statements before it followed by what it keeps of the
statements after it (or `[Tau]` when that is empty), which is also the
result for the sequence without the statement. -/
theorem traverse_deletes_select_of_all_tau (r : undefRemover)
    (pre post : List Statement) (cs : List (List Statement)) (_ : cs ≠ [])
    (hcs : ∀ c ∈ cs, r.run c = .ok [Statement.TauStatement]) :
    ∃ pre' post',
      r.traverseLoop (sizeList pre) pre 0 = .ok pre' ∧
      r.traverseLoop (sizeList post) post 0 = .ok post' ∧
      r.run (pre ++ .SelectStatement cs :: post) = .ok (orTau (pre' ++ post')) ∧
      r.run (pre ++ post) = .ok (orTau (pre' ++ post')) := by
  simp only [run_eq_iff] at hcs
  refine ⟨_, _, traverseLoop_eq_cleanList r _ pre (Nat.le_refl _),
    traverseLoop_eq_cleanList r _ post (Nat.le_refl _), ?_, ?_⟩
  · rw [run_eq_cleanSeq, cleanSeq_mid_deleted]
    have hall : (cleanCases r.found cs).all isTauSeq = true := by
      rw [cleanCases_eq_map, List.all_eq_true]
      intro x hx
      obtain ⟨c, hc, rfl⟩ := List.mem_map.mp hx
      rw [hcs c hc]; rfl
    simp [cleanStmt, hall]
  · rw [run_eq_cleanSeq, cleanSeq, cleanList_append]

/-- Witness for C8: in scenario C a select whose two cases only call or
spawn the undefined `main.xx#2` is deleted from between a send and a
receive. -/
theorem traverse_deletes_select_of_all_tau_witness :
    ([[Statement.CallStatement "main.xx#2" []], [Statement.SpawnStatement "main.xx#2" []]]
      ≠ []) ∧
    (∀ c ∈ [[Statement.CallStatement "main.xx#2" []], [Statement.SpawnStatement "main.xx#2" []]],
      (undefRemover.mk scenarioC).run c = .ok [Statement.TauStatement]) ∧
    ∃ pre' post',
      (undefRemover.mk scenarioC).traverseLoop (sizeList [.SendStatement "a"])
        [.SendStatement "a"] 0 = .ok pre' ∧
      (undefRemover.mk scenarioC).traverseLoop (sizeList [.RecvStatement "b"])
        [.RecvStatement "b"] 0 = .ok post' ∧
      (undefRemover.mk scenarioC).run ([.SendStatement "a"] ++
        .SelectStatement [[.CallStatement "main.xx#2" []], [.SpawnStatement "main.xx#2" []]]
          :: [.RecvStatement "b"])
        = .ok (orTau (pre' ++ post')) ∧
      (undefRemover.mk scenarioC).run ([.SendStatement "a"] ++ [.RecvStatement "b"])
        = .ok (orTau (pre' ++ post')) := by
  have hcs : ∀ c ∈ [[Statement.CallStatement "main.xx#2" []],
      [Statement.SpawnStatement "main.xx#2" []]],
      (undefRemover.mk scenarioC).run c = .ok [Statement.TauStatement] := by
    intro c hc
    simp only [List.mem_cons, List.mem_singleton, List.not_mem_nil, or_false] at hc
    rcases hc with rfl | rfl <;> rfl
  exact ⟨by simp, hcs, traverse_deletes_select_of_all_tau (undefRemover.mk scenarioC)
    [.SendStatement "a"] [.RecvStatement "b"] _ (by simp) hcs⟩

/-- C9: when some case of a `Select` does not come out of `traverse` as
exactly `[Tau]`, the statement is kept where it was with as many cases, in
the same order, each the result of `traverse` on the case it replaces; no
case is empty, and a case of which the scan keeps nothing is `[Tau]`. -/
theorem traverse_keeps_select_unless_all_tau (r : undefRemover)
    (pre post : List Statement) (cs : List (List Statement))
    (h : ∃ c ∈ cs, ∃ c', r.run c = .ok c' ∧ c' ≠ [Statement.TauStatement]) :
    ∃ cs' pre' post',
      List.Forall₂ (fun c c' => r.run c = .ok c' ∧ c' ≠ [] ∧
        (r.traverseLoop (sizeList c) c 0 = .ok [] → c' = [Statement.TauStatement])) cs cs' ∧
      cs'.length = cs.length ∧
      r.traverseLoop (sizeList pre) pre 0 = .ok pre' ∧
      r.traverseLoop (sizeList post) post 0 = .ok post' ∧
      r.run (pre ++ .SelectStatement cs :: post)
        = .ok (pre' ++ .SelectStatement cs' :: post') := by
  obtain ⟨c0, hc0, c0', hrun, hne⟩ := h
  rw [run_eq_iff] at hrun
  have hall : ¬ ((cleanCases r.found cs).all isTauSeq = true) := by
    rw [cleanCases_eq_map, List.all_eq_true]
    intro hall
    have := hall (cleanSeq r.found c0) (List.mem_map.mpr ⟨c0, hc0, rfl⟩)
    rw [isTauSeq_iff, hrun] at this
    exact hne this
  refine ⟨cs.map (cleanSeq r.found), _, _, ?_, by simp,
    traverseLoop_eq_cleanList r _ pre (Nat.le_refl _),
    traverseLoop_eq_cleanList r _ post (Nat.le_refl _), ?_⟩
  · rw [List.forall₂_map_right_iff, List.forall₂_same]
    intro c _
    refine ⟨run_eq_cleanSeq r c, cleanSeq_ne_nil _ _, ?_⟩
    intro hloop
    rw [traverseLoop_eq_cleanList r _ c (Nat.le_refl _)] at hloop
    have := Except.ok.inj hloop
    simp [cleanSeq, this, orTau]
  · rw [run_eq_cleanSeq]
    congr 1
    apply cleanSeq_mid_kept
    rw [cleanStmt, if_neg hall, cleanCases_eq_map]

/-- Witness for C9: scenario D.  Of three cases, two only call or spawn an
undefined function and one sends; the select keeps three cases, the first
and the last being `[Tau]`. -/
theorem traverse_keeps_select_unless_all_tau_witness :
    (∃ c ∈ scenarioDCases, ∃ c', (undefRemover.mk scenarioC).run c = .ok c' ∧
      c' ≠ [Statement.TauStatement]) ∧
    (∃ cs' pre' post',
      List.Forall₂ (fun c c' => (undefRemover.mk scenarioC).run c = .ok c' ∧ c' ≠ [] ∧
        ((undefRemover.mk scenarioC).traverseLoop (sizeList c) c 0 = .ok [] →
          c' = [Statement.TauStatement])) scenarioDCases cs' ∧
      cs'.length = scenarioDCases.length ∧
      (undefRemover.mk scenarioC).traverseLoop (sizeList []) [] 0 = .ok pre' ∧
      (undefRemover.mk scenarioC).traverseLoop (sizeList []) [] 0 = .ok post' ∧
      (undefRemover.mk scenarioC).run ([] ++ .SelectStatement scenarioDCases :: [])
        = .ok (pre' ++ .SelectStatement cs' :: post')) ∧
    (undefRemover.mk scenarioC).run [.SelectStatement scenarioDCases]
      = .ok [.SelectStatement [[.TauStatement], [.SendStatement "x"], [.TauStatement]]] := by
  have h : ∃ c ∈ scenarioDCases, ∃ c', (undefRemover.mk scenarioC).run c = .ok c' ∧
      c' ≠ [Statement.TauStatement] :=
    ⟨[.SendStatement "x"], by simp [scenarioDCases], [.SendStatement "x"], rfl, by simp⟩
  exact ⟨h, traverse_keeps_select_unless_all_tau (undefRemover.mk scenarioC) [] []
    scenarioDCases h, rfl⟩

/-! ## The pass only removes -/

theorem leavesList_append (d : String → Bool) (a b : List Statement) :
    leavesList d (a ++ b) = leavesList d a ++ leavesList d b := by
  induction a with
  | nil => simp [leavesList]
  | cons s ss ih => simp [leavesList, ih]

theorem leavesList_orTau (d : String → Bool) (x : List Statement) :
    leavesList d (orTau x) = leavesList d x := by
  cases x <;> simp [orTau, leavesList, leaves]

theorem cleanList_cons_toList (d : String → Bool) (s : Statement) (ss : List Statement) :
    cleanList d (s :: ss) = (cleanStmt d s).toList ++ cleanList d ss := by
  cases h : cleanStmt d s <;> simp [cleanList, h]

theorem leavesCases_all_tau (d : String → Bool) (xs : List (List Statement))
    (h : xs.all isTauSeq = true) : leavesCases d xs = [] := by
  induction xs with
  | nil => simp [leavesCases]
  | cons x xs ih =>
    simp only [List.all_cons, Bool.and_eq_true, isTauSeq_iff] at h
    simp [leavesCases, h.1, ih h.2, leavesList, leaves]

theorem leaves_clean_aux (d : String → Bool) :
    (∀ s, leavesList d (cleanStmt d s).toList = leaves d s) ∧
    (∀ l, leavesList d (cleanList d l) = leavesList d l) := by
  apply stmt_induction
  · intro s hl
    cases s <;> simp [isLeaf] at hl <;> simp [cleanStmt, leavesList, leaves]
    case CallStatement n ps => cases h : d n <;> simp [leavesList, leaves, h]
    case SpawnStatement n ps => cases h : d n <;> simp [leavesList, leaves, h]
  · intro t e ht he
    have h1 : leavesList d (orTau (cleanList d t)) = leavesList d t := by
      rw [leavesList_orTau, ht]
    have h2 : leavesList d (orTau (cleanList d e)) = leavesList d e := by
      rw [leavesList_orTau, he]
    by_cases hb : (isTauSeq (orTau (cleanList d t)) && isTauSeq (orTau (cleanList d e))) = true
    · rw [cleanStmt, if_pos hb]
      rw [Bool.and_eq_true, isTauSeq_iff, isTauSeq_iff] at hb
      rw [hb.1] at h1
      rw [hb.2] at h2
      simp [leavesList, leaves, ← h1, ← h2]
    · rw [cleanStmt, if_neg hb]
      simp [leavesList, leaves, h1, h2]
  · intro t e ht he
    have h1 : leavesList d (orTau (cleanList d t)) = leavesList d t := by
      rw [leavesList_orTau, ht]
    have h2 : leavesList d (orTau (cleanList d e)) = leavesList d e := by
      rw [leavesList_orTau, he]
    by_cases hb : (isTauSeq (orTau (cleanList d t)) && isTauSeq (orTau (cleanList d e))) = true
    · rw [cleanStmt, if_pos hb]
      rw [Bool.and_eq_true, isTauSeq_iff, isTauSeq_iff] at hb
      rw [hb.1] at h1
      rw [hb.2] at h2
      simp [leavesList, leaves, ← h1, ← h2]
    · rw [cleanStmt, if_neg hb]
      simp [leavesList, leaves, h1, h2]
  · intro cs hcs
    have h1 : leavesCases d (cleanCases d cs) = leavesCases d cs := by
      induction cs with
      | nil => simp [cleanCases]
      | cons c cs ih =>
        simp only [cleanCases, leavesCases]
        rw [leavesList_orTau, hcs c (by simp), ih (fun x hx => hcs x (by simp [hx]))]
    by_cases hb : (cleanCases d cs).all isTauSeq = true
    · rw [cleanStmt, if_pos hb]
      have := leavesCases_all_tau d _ hb
      rw [h1] at this
      simp [leavesList, leaves, this]
    · rw [cleanStmt, if_neg hb]
      simp [leavesList, leaves, h1]
  · simp [cleanList]
  · intro s ss hs hss
    rw [cleanList_cons_toList, leavesList_append, hs, hss]
    simp [leavesList]

theorem leavesList_cleanSeq (d : String → Bool) (l : List Statement) :
    leavesList d (cleanSeq d l) = leavesList d l := by
  rw [cleanSeq, leavesList_orTau, (leaves_clean_aux d).2 l]

/-- C10: the pass only removes and never reorders.  For every function body
(and for every sequence given to `traverse`) the leaf statements other than
`Tau` and the calls and spawns of undefined functions, read depth first and
left to right through branches and cases, are the same list before and after
the pass. -/
theorem remove_keeps_observable_leaves (p : Program) :
    (∃ q, deadcall.Remove p = .ok q ∧
      q.Funcs.map (fun f => (f.Name, f.Params, leavesList (undefRemover.mk p).found f.Stmts))
        = p.Funcs.map (fun f =>
            (f.Name, f.Params, leavesList (undefRemover.mk p).found f.Stmts))) ∧
    (∀ ss : List Statement, ∃ out, (undefRemover.mk p).run ss = .ok out ∧
      leavesList (undefRemover.mk p).found out = leavesList (undefRemover.mk p).found ss) := by
  constructor
  · refine ⟨cleanProgram p, Remove_eq_cleanProgram p, ?_⟩
    simp only [cleanProgram, List.map_map]
    apply List.map_congr_left
    intro f _
    simp [withStmts, leavesList_cleanSeq]
  · intro ss
    exact ⟨_, run_eq_cleanSeq _ ss, leavesList_cleanSeq _ ss⟩

/-! ## The silent-function pass -/

theorem mem_find_remove (p : Program) (g : Function) :
    g ∈ (taufunc.Find p taufunc.Mode.Remove).Funcs ↔
      g ∈ p.Funcs ∧ g.Name ∉ taufunc.silent p := by
  simp [taufunc.Find, List.mem_filter]

theorem mem_find_except (p : Program) (entry g : Function) :
    g ∈ (taufunc.Find p (taufunc.Mode.RemoveExcept entry)).Funcs ↔
      g ∈ p.Funcs ∧ (g.Name = entry.Name ∨ g.Name ∉ taufunc.silent p) := by
  simp [taufunc.Find, List.mem_filter]

theorem names_find_remove (p : Program) :
    names (taufunc.Find p taufunc.Mode.Remove)
      = (names p).filter (fun n => !((taufunc.silent p).contains n)) := by
  simp [names, taufunc.Find, List.filter_map, Function.comp_def]

theorem isSome_function_iff (p : Program) (n : String) :
    (p.Function n).isSome = true ↔ n ∈ names p :=
  found_iff p n

theorem simplify_of_no_entry (p : Program) (h : p.Function "\"main\".main" = none) :
    migoutil.SimplifyProgram p = deadcall.Remove (taufunc.Find p taufunc.Mode.Remove) := by
  simp only [migoutil.SimplifyProgram, h]

theorem simplify_of_entry (p : Program) (mainmain : Function)
    (h : p.Function "\"main\".main" = some mainmain) :
    migoutil.SimplifyProgram p = deadcall.Remove
      (unused.Remove (taufunc.Find p (taufunc.Mode.RemoveExcept mainmain)) mainmain) := by
  simp only [migoutil.SimplifyProgram, h]

/-- C11: when the program has no function named `"main".main` (quotes
included), `SimplifyProgram` is the silent-function pass in `Remove` mode
followed by `deadcall.Remove`, with no reachability pass: the function table
of the result is the table of the input without the silent functions, so
every function that is not silent is still there, called or not. -/
theorem simplify_without_entry_keeps_unreferenced (p : Program)
    (h : p.Function "\"main\".main" = none) :
    migoutil.SimplifyProgram p = deadcall.Remove (taufunc.Find p taufunc.Mode.Remove) ∧
    ∃ q, migoutil.SimplifyProgram p = .ok q ∧
      names q = (names p).filter (fun n => !((taufunc.silent p).contains n)) ∧
      ∀ f ∈ p.Funcs, f.Name ∉ taufunc.silent p → (q.Function f.Name).isSome = true := by
  refine ⟨simplify_of_no_entry p h, cleanProgram (taufunc.Find p taufunc.Mode.Remove), ?_, ?_, ?_⟩
  · rw [simplify_of_no_entry p h]
    exact Remove_eq_cleanProgram _
  · rw [names_cleanProgram, names_find_remove]
  · intro f hf hns
    rw [isSome_function_iff, names_cleanProgram]
    exact List.mem_map.mpr ⟨f, (mem_find_remove p f).2 ⟨hf, hns⟩, rfl⟩

/-- Witness for C11: the mem-op test.  Its entry is named `main.main`, so
the lookup of `"main".main` fails; `work` is not silent and nothing calls
it, and it is one of the 4 functions left. -/
theorem simplify_without_entry_keeps_unreferenced_witness :
    memOp.Function "\"main\".main" = none ∧
    (migoutil.SimplifyProgram memOp
        = deadcall.Remove (taufunc.Find memOp taufunc.Mode.Remove) ∧
      ∃ q, migoutil.SimplifyProgram memOp = .ok q ∧
        names q = (names memOp).filter (fun n => !((taufunc.silent memOp).contains n)) ∧
        ∀ f ∈ memOp.Funcs, f.Name ∉ taufunc.silent memOp →
          (q.Function f.Name).isSome = true) ∧
    migoutil.SimplifyProgram memOp = .ok memOpOnce ∧
    memOpOnce.Funcs.length = 4 ∧
    names memOpOnce = ["main.main", "send", "recv", "work"] :=
  ⟨rfl, simplify_without_entry_keeps_unreferenced memOp rfl, rfl, rfl, rfl⟩

theorem filter_eq_self_of_length {α : Type} (keep : α → Bool) (l : List α)
    (h : (l.filter keep).length = l.length) : l.filter keep = l :=
  (List.filter_sublist l).eq_of_length h

/-- A name that no round keeps is not classified silent once a round has
run. -/
theorem not_mem_classify (p : Program) (n : String) (f : Function)
    (hf : p.Function n = some f) (hno : ∀ c, taufunc.staysCandidate c f = false) :
    ∀ k cands, 1 ≤ k → n ∉ taufunc.classify p k cands := by
  have hrefine : ∀ c, n ∉ taufunc.refine p c := by
    intro c hn
    simp only [taufunc.refine, List.mem_filter, hf, hno] at hn
    simp at hn
  intro k
  induction k with
  | zero => intro cands h; omega
  | succ k ih =>
    intro cands _
    simp only [taufunc.classify]
    split
    · rename_i hlen
      have := filter_eq_self_of_length _ cands hlen
      intro hn
      apply hrefine cands
      simp only [taufunc.refine]
      rw [this]
      exact hn
    · cases k with
      | zero => simpa [taufunc.classify] using hrefine cands
      | succ k => exact ih _ (by omega)

/-- A set of names that supports itself stays among the candidates: when
every member is kept by every round whose candidates include the set, the
members are classified silent. -/
theorem mem_classify (p : Program) (S : List String)
    (hS : ∀ n ∈ S, ∀ c, (∀ m ∈ S, m ∈ c) →
      ∃ f, p.Function n = some f ∧ taufunc.staysCandidate c f = true) :
    ∀ k cands, (∀ m ∈ S, m ∈ cands) → ∀ n ∈ S, n ∈ taufunc.classify p k cands := by
  intro k
  induction k with
  | zero => intro cands hc n hn; simpa [taufunc.classify] using hc n hn
  | succ k ih =>
    intro cands hc n hn
    simp only [taufunc.classify]
    split
    · exact hc n hn
    · apply ih _ _ n hn
      intro m hm
      obtain ⟨f, hf, hstay⟩ := hS m hm cands hc
      simp only [taufunc.refine, List.mem_filter]
      exact ⟨hc m hm, by simp [hf, hstay]⟩

theorem mem_funcs_of_function (p : Program) (n : String) (f : Function)
    (h : p.Function n = some f) : f ∈ p.Funcs ∧ f.Name = n := by
  refine ⟨List.mem_of_find?_eq_some h, ?_⟩
  have := List.find?_some h
  simpa using this

theorem function_of_mem (p : Program) (g : Function) (h : g ∈ p.Funcs) :
    ∃ g', p.Function g.Name = some g' := by
  have : (p.Function g.Name).isSome = true :=
    (isSome_function_iff p g.Name).2 (List.mem_map.mpr ⟨g, h, rfl⟩)
  exact Option.isSome_iff_exists.mp this

theorem actsList_top (l : List Statement) (h : actsList l = true) :
    ∃ s ∈ l, callTarget s = none ∧ s ≠ Statement.TauStatement := by
  induction l with
  | nil => simp [actsList] at h
  | cons s ss ih =>
    simp only [actsList, Bool.or_eq_true] at h
    rcases h with h | h
    · refine ⟨s, by simp, ?_⟩
      cases s <;> simp [acts] at h <;> simp [callTarget]
    · obtain ⟨s', hs', h'⟩ := ih h
      exact ⟨s', by simp [hs'], h'⟩

theorem not_staysCandidate (c : List String) (f : Function)
    (h : ∃ s ∈ f.Stmts, callTarget s = none ∧ s ≠ Statement.TauStatement) :
    taufunc.staysCandidate c f = false := by
  obtain ⟨s, hs, hcall, htau⟩ := h
  have hmem : s ∈ taufunc.withoutCandidateCalls c f.Stmts := by
    simp only [taufunc.withoutCandidateCalls, List.mem_filter]
    refine ⟨hs, ?_⟩
    cases s <;> simp [callTarget] at hcall <;> rfl
  simp only [taufunc.staysCandidate, Function.IsEmpty, withStmts]
  generalize taufunc.withoutCandidateCalls c f.Stmts = l at hmem
  match l, hmem with
  | [a], hmem =>
    simp only [List.mem_singleton] at hmem
    subst hmem
    cases s <;> simp at htau ⊢
  | a :: _ :: _, _ => cases a <;> rfl

theorem acting_not_silent (p : Program) (g : Function) (hg : p.Function g.Name = some g)
    (hact : actsList g.Stmts = true) : g.Name ∉ taufunc.silent p := by
  have hpos : 1 ≤ p.Funcs.length := by
    have := (mem_funcs_of_function p _ _ hg).1
    exact List.length_pos_of_mem this
  exact not_mem_classify p g.Name g hg
    (fun c => not_staysCandidate c g (actsList_top _ hact)) _ _ hpos

theorem mem_names_find_remove (p : Program) (n : String) :
    n ∈ names (taufunc.Find p taufunc.Mode.Remove) ↔ n ∈ names p ∧ n ∉ taufunc.silent p := by
  simp only [names, List.mem_map, mem_find_remove]
  constructor
  · rintro ⟨g, ⟨hg, hs⟩, rfl⟩; exact ⟨⟨g, hg, rfl⟩, hs⟩
  · rintro ⟨⟨g, hg, rfl⟩, hs⟩; exact ⟨g, ⟨hg, hs⟩, rfl⟩

theorem mem_names_find_except (p : Program) (entry : Function) (n : String) :
    n ∈ names (taufunc.Find p (taufunc.Mode.RemoveExcept entry)) ↔
      n ∈ names p ∧ (n = entry.Name ∨ n ∉ taufunc.silent p) := by
  simp only [names, List.mem_map, mem_find_except]
  constructor
  · rintro ⟨g, ⟨hg, hs⟩, rfl⟩; exact ⟨⟨g, hg, rfl⟩, hs⟩
  · rintro ⟨⟨g, hg, rfl⟩, hs⟩; exact ⟨g, ⟨hg, hs⟩, rfl⟩

theorem mem_names_unused (P : Program) (entry : Function) (n : String) :
    n ∈ names (unused.Remove P entry) ↔ n ∈ names P ∧ n ∈ unused.reachable P entry := by
  simp only [names, List.mem_map, unused.Remove, List.mem_filter, List.contains_eq_any_beq,
    List.any_eq_true, beq_iff_eq]
  constructor
  · rintro ⟨g, ⟨hg, m, hm, rfl⟩, rfl⟩; exact ⟨⟨g, hg, rfl⟩, hm⟩
  · rintro ⟨⟨g, hg, rfl⟩, hm⟩; exact ⟨g, ⟨hg, g.Name, hm, rfl⟩, rfl⟩

theorem empty_is_silent (p : Program) (w : Function) (hw : p.Function w.Name = some w)
    (hempty : w.IsEmpty = true) : w.Name ∈ taufunc.silent p := by
  have hstay : ∀ c, taufunc.staysCandidate c w = true := by
    intro c
    simp only [taufunc.staysCandidate, Function.IsEmpty, withStmts]
    simp only [Function.IsEmpty] at hempty
    match hs : w.Stmts with
    | [] => simp [taufunc.withoutCandidateCalls]
    | [a] =>
      rw [hs] at hempty
      cases a <;> simp at hempty
      simp [taufunc.withoutCandidateCalls]
    | _ :: _ :: _ =>
      rw [hs] at hempty
      simp at hempty
  apply mem_classify p [w.Name]
  · intro n hn c _
    simp only [List.mem_singleton] at hn
    subst hn
    exact ⟨w, hw, hstay c⟩
  · intro m hm
    simp only [List.mem_singleton] at hm
    subst hm
    exact List.mem_map.mpr ⟨w, (mem_funcs_of_function p _ _ hw).1, rfl⟩
  · simp

theorem no_call_of_absent (P : Program) (n : String) (hn : n ∉ names P)
    (f : Function) (hf : f ∈ (cleanProgram P).Funcs) (x : List Statement)
    (hx : Nested x f.Stmts) (s : Statement) (hs : s ∈ x) : callTarget s ≠ some n := by
  intro hc
  have := calls_found_cleanProgram P f x s n hf hx hs hc
  exact hn ((found_iff P n).1 this)

/-- C12, as stated, fails: in `unreachableAction` the function `w` is
silent and is not the entry, the entry and `g` both send, and after the
pipeline `g` is gone as well, because nothing reachable from the entry calls
it. -/
theorem simplify_drops_unreachable_action :
    unreachableAction.Function "w" = some (func "w" [.TauStatement]) ∧
    (func "w" [.TauStatement]).IsEmpty = true ∧
    "w" ≠ "\"main\".main" ∧
    (unreachableAction.Function "g").isSome = true ∧
    actsList [Statement.SendStatement "x"] = true ∧
    actsList [Statement.SendStatement "y"] = true ∧
    migoutil.SimplifyProgram unreachableAction = .ok unreachableActionOnce ∧
    (unreachableActionOnce.Function "g").isSome = false :=
  ⟨rfl, rfl, by decide, rfl, rfl, rfl, rfl, rfl⟩

/-- C12, amended: `w` has an empty body or the body `[Tau]`, is not the
entry, and every other function performs an observable action.  After the
pipeline `w` is not in the function table and no `Call` or `Spawn` of `w` is
left at any depth.  When the program has no function named `"main".main`,
every other function is still there; when it has one, the other functions
still there are exactly those the reachability pass reaches from it. -/
theorem simplify_deletes_silent_function (p : Program) (w : Function)
    (hw : p.Function w.Name = some w) (hempty : w.IsEmpty = true)
    (hne : w.Name ≠ "\"main\".main")
    (hact : ∀ g ∈ p.Funcs, g.Name ≠ w.Name → actsList g.Stmts = true) :
    ∃ q, migoutil.SimplifyProgram p = .ok q ∧
      (q.Function w.Name).isSome = false ∧
      (∀ f ∈ q.Funcs, ∀ x, Nested x f.Stmts → ∀ s ∈ x, callTarget s ≠ some w.Name) ∧
      (p.Function "\"main\".main" = none →
        ∀ g ∈ p.Funcs, g.Name ≠ w.Name → (q.Function g.Name).isSome = true) ∧
      (∀ mainmain, p.Function "\"main\".main" = some mainmain →
        ∀ g ∈ p.Funcs, g.Name ≠ w.Name →
          ((q.Function g.Name).isSome = true ↔
            g.Name ∈ unused.reachable
              (taufunc.Find p (taufunc.Mode.RemoveExcept mainmain)) mainmain)) := by
  have hsil := empty_is_silent p w hw hempty
  have hns : ∀ g ∈ p.Funcs, g.Name ≠ w.Name → g.Name ∉ taufunc.silent p := by
    intro g hg hgn
    obtain ⟨g', hg'⟩ := function_of_mem p g hg
    obtain ⟨hmem, hname⟩ := mem_funcs_of_function p _ _ hg'
    have := acting_not_silent p g' (by rw [hname]; exact hg')
      (hact g' hmem (by rw [hname]; exact hgn))
    rw [hname] at this
    exact this
  cases hentry : p.Function "\"main\".main" with
  | none =>
    have habs : w.Name ∉ names (taufunc.Find p taufunc.Mode.Remove) := by
      rw [mem_names_find_remove]; exact fun h => h.2 hsil
    refine ⟨cleanProgram (taufunc.Find p taufunc.Mode.Remove), ?_, ?_, ?_, ?_, ?_⟩
    · rw [simplify_of_no_entry p hentry]; exact Remove_eq_cleanProgram _
    · rw [Bool.eq_false_iff, Ne, isSome_function_iff, names_cleanProgram]; exact habs
    · intro f hf x hx s hs
      exact no_call_of_absent _ _ habs f hf x hx s hs
    · intro _ g hg hgn
      rw [isSome_function_iff, names_cleanProgram, mem_names_find_remove]
      exact ⟨List.mem_map.mpr ⟨g, hg, rfl⟩, hns g hg hgn⟩
    · intro mainmain h; cases h
  | some mm =>
    have hmm := (mem_funcs_of_function p _ _ hentry).2
    have habs : w.Name ∉ names
        (unused.Remove (taufunc.Find p (taufunc.Mode.RemoveExcept mm)) mm) := by
      rw [mem_names_unused, mem_names_find_except]
      rintro ⟨⟨-, h | h⟩, -⟩
      · exact hne (h.trans hmm)
      · exact h hsil
    refine ⟨cleanProgram
      (unused.Remove (taufunc.Find p (taufunc.Mode.RemoveExcept mm)) mm), ?_, ?_, ?_, ?_, ?_⟩
    · rw [simplify_of_entry p mm hentry]; exact Remove_eq_cleanProgram _
    · rw [Bool.eq_false_iff, Ne, isSome_function_iff, names_cleanProgram]; exact habs
    · intro f hf x hx s hs
      exact no_call_of_absent _ _ habs f hf x hx s hs
    · intro h; cases h
    · intro mainmain h g hg hgn
      cases h
      rw [isSome_function_iff, names_cleanProgram, mem_names_unused, mem_names_find_except]
      constructor
      · exact fun h => h.2
      · exact fun h => ⟨⟨List.mem_map.mpr ⟨g, hg, rfl⟩, Or.inr (hns g hg hgn)⟩, h⟩

/-- Witness for C12, amended: scenario A as the tests write it.  `work` is
removed, `main.main`, `s` and `r` are the 3 functions left, and the entry no
longer spawns `work`. -/
theorem simplify_deletes_silent_function_witness :
    (scenarioATest.Function (func "work" [.TauStatement]).Name
        = some (func "work" [.TauStatement]) ∧
      (func "work" [.TauStatement]).IsEmpty = true ∧
      (func "work" [.TauStatement]).Name ≠ "\"main\".main" ∧
      ∀ g ∈ scenarioATest.Funcs, g.Name ≠ (func "work" [.TauStatement]).Name →
        actsList g.Stmts = true) ∧
    (∃ q, migoutil.SimplifyProgram scenarioATest = .ok q ∧
      (q.Function (func "work" [.TauStatement]).Name).isSome = false ∧
      (∀ f ∈ q.Funcs, ∀ x, Nested x f.Stmts → ∀ s ∈ x,
        callTarget s ≠ some (func "work" [.TauStatement]).Name) ∧
      (scenarioATest.Function "\"main\".main" = none →
        ∀ g ∈ scenarioATest.Funcs, g.Name ≠ (func "work" [.TauStatement]).Name →
          (q.Function g.Name).isSome = true) ∧
      (∀ mainmain, scenarioATest.Function "\"main\".main" = some mainmain →
        ∀ g ∈ scenarioATest.Funcs, g.Name ≠ (func "work" [.TauStatement]).Name →
          ((q.Function g.Name).isSome = true ↔
            g.Name ∈ unused.reachable
              (taufunc.Find scenarioATest (taufunc.Mode.RemoveExcept mainmain)) mainmain))) ∧
    migoutil.SimplifyProgram scenarioATest = .ok scenarioATestOnce ∧
    names scenarioATestOnce = ["main.main", "s", "r"] := by
  have hne : (func "work" [.TauStatement]).Name ≠ "\"main\".main" := by
    simp [func]
  have hact : ∀ g ∈ scenarioATest.Funcs, g.Name ≠ (func "work" [.TauStatement]).Name →
      actsList g.Stmts = true := by
    intro g hg hgn
    simp only [scenarioATest, List.mem_cons, List.mem_singleton, List.not_mem_nil,
      or_false] at hg
    rcases hg with rfl | rfl | rfl | rfl
    · rfl
    · rfl
    · rfl
    · exact absurd rfl hgn
  exact ⟨⟨rfl, rfl, hne, hact⟩,
    simplify_deletes_silent_function scenarioATest (func "work" [.TauStatement])
      rfl rfl hne hact, rfl, rfl⟩

/-- C13: `f` and `g` are functions of the program other than the entry, the
body of `f` is one call (or spawn) of `g` and the body of `g` one call (or
spawn) of `f`.  The silent-function pass classifies both as silent, and
after the pipeline neither is in the function table and no `Call` or `Spawn`
of either is left at any depth. -/
theorem simplify_deletes_silent_cycle (p : Program) (f g : Function) (sf sg : Statement)
    (hf : p.Function f.Name = some f) (hg : p.Function g.Name = some g)
    (hfb : f.Stmts = [sf]) (hsf : callTarget sf = some g.Name)
    (hgb : g.Stmts = [sg]) (hsg : callTarget sg = some f.Name)
    (hfe : f.Name ≠ "\"main\".main") (hge : g.Name ≠ "\"main\".main") :
    f.Name ∈ taufunc.silent p ∧ g.Name ∈ taufunc.silent p ∧
    ∃ q, migoutil.SimplifyProgram p = .ok q ∧
      (q.Function f.Name).isSome = false ∧ (q.Function g.Name).isSome = false ∧
      ∀ f' ∈ q.Funcs, ∀ x, Nested x f'.Stmts → ∀ s ∈ x,
        callTarget s ≠ some f.Name ∧ callTarget s ≠ some g.Name := by
  have hstay : ∀ (a : Function) (s : Statement) (n : String) (c : List String),
      a.Stmts = [s] → callTarget s = some n → n ∈ c → taufunc.staysCandidate c a = true := by
    intro a s n c hb hs hn
    simp only [taufunc.staysCandidate, Function.IsEmpty, withStmts, hb,
      taufunc.withoutCandidateCalls]
    cases s <;> simp [callTarget] at hs <;> subst hs <;> simp [List.filter, hn]
  have hboth : ∀ n ∈ [f.Name, g.Name], n ∈ taufunc.silent p := by
    apply mem_classify p [f.Name, g.Name]
    · intro n hn c hc
      simp only [List.mem_cons, List.mem_singleton, List.not_mem_nil, or_false] at hn
      rcases hn with rfl | rfl
      · exact ⟨f, hf, hstay f sf g.Name c hfb hsf (hc _ (by simp))⟩
      · exact ⟨g, hg, hstay g sg f.Name c hgb hsg (hc _ (by simp))⟩
    · intro m hm
      simp only [List.mem_cons, List.mem_singleton, List.not_mem_nil, or_false] at hm
      rcases hm with rfl | rfl
      · exact List.mem_map.mpr ⟨f, (mem_funcs_of_function p _ _ hf).1, rfl⟩
      · exact List.mem_map.mpr ⟨g, (mem_funcs_of_function p _ _ hg).1, rfl⟩
  have hfs := hboth f.Name (by simp)
  have hgs := hboth g.Name (by simp)
  refine ⟨hfs, hgs, ?_⟩
  cases hentry : p.Function "\"main\".main" with
  | none =>
    have habs : ∀ n, n ∈ taufunc.silent p →
        n ∉ names (taufunc.Find p taufunc.Mode.Remove) := by
      intro n hn; rw [mem_names_find_remove]; exact fun h => h.2 hn
    refine ⟨cleanProgram (taufunc.Find p taufunc.Mode.Remove), ?_, ?_, ?_, ?_⟩
    · rw [simplify_of_no_entry p hentry]; exact Remove_eq_cleanProgram _
    · rw [Bool.eq_false_iff, Ne, isSome_function_iff, names_cleanProgram]; exact habs _ hfs
    · rw [Bool.eq_false_iff, Ne, isSome_function_iff, names_cleanProgram]; exact habs _ hgs
    · intro f' hf' x hx s hs
      exact ⟨no_call_of_absent _ _ (habs _ hfs) f' hf' x hx s hs,
        no_call_of_absent _ _ (habs _ hgs) f' hf' x hx s hs⟩
  | some mm =>
    have hmm := (mem_funcs_of_function p _ _ hentry).2
    have habs : ∀ n, n ∈ taufunc.silent p → n ≠ "\"main\".main" → n ∉ names
        (unused.Remove (taufunc.Find p (taufunc.Mode.RemoveExcept mm)) mm) := by
      intro n hn hne
      rw [mem_names_unused, mem_names_find_except]
      rintro ⟨⟨-, h | h⟩, -⟩
      · exact hne (h.trans hmm)
      · exact h hn
    refine ⟨cleanProgram
      (unused.Remove (taufunc.Find p (taufunc.Mode.RemoveExcept mm)) mm), ?_, ?_, ?_, ?_⟩
    · rw [simplify_of_entry p mm hentry]; exact Remove_eq_cleanProgram _
    · rw [Bool.eq_false_iff, Ne, isSome_function_iff, names_cleanProgram]
      exact habs _ hfs hfe
    · rw [Bool.eq_false_iff, Ne, isSome_function_iff, names_cleanProgram]
      exact habs _ hgs hge
    · intro f' hf' x hx s hs
      exact ⟨no_call_of_absent _ _ (habs _ hfs hfe) f' hf' x hx s hs,
        no_call_of_absent _ _ (habs _ hgs hge) f' hf' x hx s hs⟩

/-- Witness for C13: in `silentCycle` the functions `f` and `g` only call
each other; the pipeline removes both and the call of `f` in the entry. -/
theorem simplify_deletes_silent_cycle_witness :
    (silentCycle.Function (func "f" [.CallStatement "g" []]).Name
        = some (func "f" [.CallStatement "g" []]) ∧
      silentCycle.Function (func "g" [.CallStatement "f" []]).Name
        = some (func "g" [.CallStatement "f" []])) ∧
    ((func "f" [.CallStatement "g" []]).Name ∈ taufunc.silent silentCycle ∧
      (func "g" [.CallStatement "f" []]).Name ∈ taufunc.silent silentCycle ∧
      ∃ q, migoutil.SimplifyProgram silentCycle = .ok q ∧
        (q.Function (func "f" [.CallStatement "g" []]).Name).isSome = false ∧
        (q.Function (func "g" [.CallStatement "f" []]).Name).isSome = false ∧
        ∀ f' ∈ q.Funcs, ∀ x, Nested x f'.Stmts → ∀ s ∈ x,
          callTarget s ≠ some (func "f" [.CallStatement "g" []]).Name ∧
          callTarget s ≠ some (func "g" [.CallStatement "f" []]).Name) ∧
    migoutil.SimplifyProgram silentCycle = .ok silentCycleOnce :=
  ⟨⟨rfl, rfl⟩,
    simplify_deletes_silent_cycle silentCycle (func "f" [.CallStatement "g" []])
      (func "g" [.CallStatement "f" []]) (.CallStatement "g" []) (.CallStatement "f" [])
      rfl rfl rfl rfl rfl rfl (by simp [func]) (by simp [func]), rfl⟩

/-! ## Any call budget: the result or `outOfFuel`, never an index error -/

theorem error_bind {ε α β : Type} (e : ε) (f : α → Except ε β) :
    ((Except.error e : Except ε α) >>= f) = Except.error e := rfl

theorem mapM_ok_or {α β : Type} (f : α → Except TraverseError β) (g : α → β)
    (e : TraverseError) (cs : List α)
    (h : ∀ c ∈ cs, f c = .ok (g c) ∨ f c = .error e) :
    cs.mapM f = .ok (cs.map g) ∨ cs.mapM f = .error e := by
  induction cs with
  | nil => left; simp; rfl
  | cons c cs ih =>
    rw [List.mapM_cons]
    rcases h c (by simp) with h1 | h1
    · rcases ih (fun x hx => h x (by simp [hx])) with h2 | h2
      · left; rw [h1, h2]; rfl
      · right; rw [h1, h2]; rfl
    · right; rw [h1]; rfl

theorem traverse_any_fuel_aux (r : undefRemover) : ∀ fuel,
    (∀ stmts, r.traverse fuel stmts = .ok (cleanSeq r.found stmts) ∨
      r.traverse fuel stmts = .error .outOfFuel) ∧
    (∀ pre suf,
      r.traverseLoop fuel (pre ++ suf) (pre.length : Int)
          = .ok (pre ++ cleanList r.found suf) ∨
      r.traverseLoop fuel (pre ++ suf) (pre.length : Int) = .error .outOfFuel) := by
  intro fuel
  induction fuel with
  | zero =>
    constructor
    · intro stmts; right; simp [undefRemover.traverse]
    · intro pre suf; right; simp [undefRemover.traverseLoop]
  | succ fuel ih =>
    obtain ⟨ihT, ihL⟩ := ih
    have keep : ∀ pre (s' : Statement) rest,
        r.traverseLoop fuel (pre ++ s' :: rest) ((pre.length : Int) + 1)
            = .ok (pre ++ s' :: cleanList r.found rest) ∨
        r.traverseLoop fuel (pre ++ s' :: rest) ((pre.length : Int) + 1)
            = .error .outOfFuel := by
      intro pre s' rest
      have := ihL (pre ++ [s']) rest
      simpa using this
    constructor
    · intro stmts
      have := ihL [] stmts
      simp only [List.nil_append, List.length_nil, Nat.cast_zero] at this
      rcases this with h | h
      · left
        simp only [undefRemover.traverse, h, ok_bind, cleanSeq, orTau]
        split <;> rfl
      · right
        simp only [undefRemover.traverse, h, error_bind]
    · intro pre suf
      cases suf with
      | nil => left; simp [undefRemover.traverseLoop, cleanList]; rfl
      | cons s rest =>
        have hlt : (pre.length : Int) < ((pre ++ s :: rest).length : Int) := by
          simp
        rw [undefRemover.traverseLoop]
        simp only [hlt, if_true, index_append, ok_bind]
        cases s with
        | IfStatement t e =>
          rcases ihT t with ht | ht
          · rcases ihT e with he | he
            · simp only [ht, he, ok_bind, branchIsTau_eq, set_append_mid, deleteAt_append]
              by_cases hb :
                  (isTauSeq (cleanSeq r.found t) && isTauSeq (cleanSeq r.found e)) = true
              · have hb' := hb
                simp only [cleanSeq] at hb'
                have := ihL pre rest
                simpa [hb, hb', cleanList, cleanStmt] using this
              · have hb' := hb
                simp only [cleanSeq] at hb'
                have := keep pre (.IfStatement (cleanSeq r.found t) (cleanSeq r.found e)) rest
                simpa [hb, hb', cleanList, cleanStmt, cleanSeq] using this
            · right; simp only [ht, he, ok_bind, error_bind]
          · right; simp only [ht, error_bind]
        | IfForStatement t e =>
          rcases ihT t with ht | ht
          · rcases ihT e with he | he
            · simp only [ht, he, ok_bind, branchIsTau_eq, set_append_mid, deleteAt_append]
              by_cases hb :
                  (isTauSeq (cleanSeq r.found t) && isTauSeq (cleanSeq r.found e)) = true
              · have hb' := hb
                simp only [cleanSeq] at hb'
                have := ihL pre rest
                simpa [hb, hb', cleanList, cleanStmt] using this
              · have hb' := hb
                simp only [cleanSeq] at hb'
                have := keep pre (.IfForStatement (cleanSeq r.found t) (cleanSeq r.found e))
                  rest
                simpa [hb, hb', cleanList, cleanStmt, cleanSeq] using this
            · right; simp only [ht, he, ok_bind, error_bind]
          · right; simp only [ht, error_bind]
        | SelectStatement cs =>
          have hmap : (cs.map (cleanSeq r.found)).map orTau = cs.map (cleanSeq r.found) := by
            simp [cleanSeq, orTau_orTau]
          rcases mapM_ok_or (r.traverse fuel) (cleanSeq r.found) .outOfFuel cs
            (fun c _ => ihT c) with hm | hm
          · simp only [hm, ok_bind, selectFlags_eq, hmap, set_append_mid,
              deleteAt_append, Bool.true_and, Bool.false_or]
            by_cases hb : ((cs.map (cleanSeq r.found)).all isTauSeq) = true
            · have hb' := hb
              rw [← cleanCases_eq_map] at hb'
              have := ihL pre rest
              simpa [hb, hb', cleanList, cleanStmt] using this
            · have hb' := hb
              rw [← cleanCases_eq_map] at hb'
              have := keep pre (.SelectStatement (cs.map (cleanSeq r.found))) rest
              simpa [hb, hb', cleanList, cleanStmt, cleanCases_eq_map] using this
          · right; simp only [hm, error_bind]
        | CallStatement n ps =>
          by_cases hd : r.found n = true
          · have := keep pre (.CallStatement n ps) rest
            simpa [hd, cleanList, cleanStmt] using this
          · have := ihL pre rest
            simpa [hd, deleteAt_append, cleanList, cleanStmt] using this
        | SpawnStatement n ps =>
          by_cases hd : r.found n = true
          · have := keep pre (.SpawnStatement n ps) rest
            simpa [hd, cleanList, cleanStmt] using this
          · have := ihL pre rest
            simpa [hd, deleteAt_append, cleanList, cleanStmt] using this
        | _ =>
          simp only [cleanList, cleanStmt]
          exact keep pre _ rest

theorem traverseLoop_past_end (r : undefRemover) (fuel : Nat) (ss : List Statement) (i : Int)
    (h : (ss.length : Int) ≤ i) :
    r.traverseLoop fuel ss i = .ok ss ∨ r.traverseLoop fuel ss i = .error .outOfFuel := by
  cases fuel with
  | zero => right; simp [undefRemover.traverseLoop]
  | succ fuel =>
    left
    rw [undefRemover.traverseLoop, if_neg (by omega)]
    rfl

theorem traverseLoop_no_index_error (r : undefRemover) (fuel : Nat) (ss : List Statement)
    (i : Int) (h0 : 0 ≤ i) : r.traverseLoop fuel ss i ≠ .error .indexOutOfRange := by
  by_cases hi : (ss.length : Int) ≤ i
  · rcases traverseLoop_past_end r fuel ss i hi with h | h <;> rw [h] <;> simp
  · have hlen : (ss.take i.toNat).length = i.toNat := by
      rw [List.length_take]; omega
    have hcast : ((ss.take i.toNat).length : Int) = i := by
      rw [hlen]; omega
    have := (traverse_any_fuel_aux r fuel).2 (ss.take i.toNat) (ss.drop i.toNat)
    rw [List.take_append_drop, hcast] at this
    rcases this with h | h <;> rw [h] <;> simp

/-- C14: the in-place scan of `traverse` computes the build-a-new-list
reference `cleanSeq` (one visit per input statement from left to right,
undefined calls and spawns dropped, `If`, `IfFor` and `Select` rebuilt from
their cleaned branches and cases or dropped when these are all `[Tau]`,
`[Tau]` for an empty output): with a call budget that covers the tree the
result is the reference, from every scan position the loop returns the
statements already passed followed by the reference for the rest, a smaller
budget can only stop the run and never changes the result, and `Remove` is
the reference applied to every body. -/
theorem traverse_refines_clean (r : undefRemover) (ss : List Statement) :
    r.run ss = .ok (cleanSeq r.found ss) ∧
    (∀ extra, r.traverse (sizeList ss + 1 + extra) ss = .ok (cleanSeq r.found ss)) ∧
    (∀ pre extra, r.traverseLoop (sizeList ss + extra) (pre ++ ss) (pre.length : Int)
      = .ok (pre ++ cleanList r.found ss)) ∧
    (∀ fuel, r.traverse fuel ss = .ok (cleanSeq r.found ss) ∨
      r.traverse fuel ss = .error .outOfFuel) ∧
    deadcall.Remove r.prog = .ok (cleanProgram r.prog) := by
  refine ⟨run_eq_cleanSeq r ss, ?_, ?_, ?_, Remove_eq_cleanProgram _⟩
  · intro extra
    exact traverse_eq_cleanSeq r _ ss (by omega)
  · intro pre extra
    exact (traverse_clean_aux r _).2 pre ss (by omega)
  · intro fuel
    exact (traverse_any_fuel_aux r fuel).1 ss

/-- C15: `traverse` is total.  With the call budget of `run` it returns a
result (no budget exhausted, no index out of range), and so does `Remove`;
whatever the budget, no index expression is out of range, from every loop
state with `0 ≤ i`, in particular from the state reached by stepping `i`
back after a deletion; the tests on `Then[0]`, `Else[0]` and `Cases[i][0]`
never fail; the quantity `len(ss) - i` is smaller after an iteration that
deletes and after one that keeps; the recursive calls are on sequences
smaller than the statement that holds them.  In scenario C the deletion at
index 0 of `[call main.xx#2, send x]` leaves `[send x]`. -/
theorem traverse_total_in_bounds (r : undefRemover) (ss : List Statement) :
    (∃ out, r.run ss = .ok out) ∧
    (∃ q, deadcall.Remove r.prog = .ok q) ∧
    (∀ fuel, r.traverse fuel ss ≠ .error .indexOutOfRange) ∧
    (∀ fuel (i : Int), 0 ≤ i → r.traverseLoop fuel ss i ≠ .error .indexOutOfRange) ∧
    (∀ fuel (i : Int), 0 ≤ i → i < ss.length →
      (∃ stmt, index ss i = .ok stmt) ∧
      0 ≤ (i - 1) + 1 ∧
      r.traverseLoop fuel (deleteAt ss i) ((i - 1) + 1) ≠ .error .indexOutOfRange ∧
      ((deleteAt ss i).length : Int) - ((i - 1) + 1) < (ss.length : Int) - i ∧
      ∀ stmt, ((ss.set i.toNat stmt).length : Int) - (i + 1) < (ss.length : Int) - i) ∧
    (∀ b, ∃ v, branchIsTau b = .ok v) ∧
    (∀ cs tau tauOne, ∃ v, selectFlags cs tau tauOne = .ok v) ∧
    (∀ t e, sizeList t < stmtSize (.IfStatement t e) ∧
      sizeList e < stmtSize (.IfStatement t e) ∧
      sizeList t < stmtSize (.IfForStatement t e) ∧
      sizeList e < stmtSize (.IfForStatement t e)) ∧
    (∀ cs, ∀ c ∈ cs, sizeList c < stmtSize (.SelectStatement cs)) ∧
    (undefRemover.mk scenarioC).run [.CallStatement "main.xx#2" [], .SendStatement "x"]
      = .ok [.SendStatement "x"] := by
  refine ⟨⟨_, run_eq_cleanSeq r ss⟩, ⟨_, Remove_eq_cleanProgram _⟩, ?_, ?_, ?_, ?_, ?_, ?_, ?_, ?_⟩
  · intro fuel
    rcases (traverse_any_fuel_aux r fuel).1 ss with h | h <;> rw [h] <;> simp
  · intro fuel i h0
    exact traverseLoop_no_index_error r fuel ss i h0
  · intro fuel i h0 hi
    have hnat : i.toNat < ss.length := by omega
    refine ⟨?_, by omega, traverseLoop_no_index_error r fuel _ _ (by omega), ?_, ?_⟩
    · refine ⟨ss[i.toNat], ?_⟩
      simp [index, h0, List.getElem?_eq_getElem hnat]
    · simp only [deleteAt, List.length_append, List.length_take, List.length_drop]
      omega
    · intro stmt
      simp only [List.length_set]
      omega
  · intro b
    exact ⟨_, branchIsTau_eq b⟩
  · intro cs tau tauOne
    exact ⟨_, selectFlags_eq cs tau tauOne⟩
  · intro t e
    have h1 := sizeList_pos t
    have h2 := sizeList_pos e
    simp only [stmtSize]
    omega
  · intro cs c hc
    have := sizeCases_mem cs c hc
    simp only [stmtSize]
    omega
  · rfl

/-! ## `IfFor` is treated like `If` -/

theorem ifForToIfList_eq_map (l : List Statement) : ifForToIfList l = l.map ifForToIf := by
  induction l with
  | nil => simp [ifForToIfList]
  | cons s ss ih => simp [ifForToIfList, ih]

theorem ifForToIfCases_eq_map (cs : List (List Statement)) :
    ifForToIfCases cs = cs.map ifForToIfList := by
  induction cs with
  | nil => simp [ifForToIfCases]
  | cons c cs ih => simp [ifForToIfCases, ih]

theorem ifForToIf_eq_tau (s : Statement) :
    ifForToIf s = .TauStatement ↔ s = .TauStatement := by
  cases s <;> simp [ifForToIf]

theorem isTauSeq_ifForToIfList (x : List Statement) :
    isTauSeq (ifForToIfList x) = isTauSeq x := by
  match x with
  | [] => rfl
  | [s] => cases s <;> rfl
  | a :: _ :: _ => cases a <;> rfl

theorem ifForToIfList_orTau (x : List Statement) :
    ifForToIfList (orTau x) = orTau (ifForToIfList x) := by
  cases x <;> simp [orTau, ifForToIfList, ifForToIf]

theorem ifForToIfList_append (a b : List Statement) :
    ifForToIfList (a ++ b) = ifForToIfList a ++ ifForToIfList b := by
  simp [ifForToIfList_eq_map]

theorem clean_ifForToIf_aux (d : String → Bool) :
    (∀ s, cleanStmt d (ifForToIf s) = (cleanStmt d s).map ifForToIf) ∧
    (∀ l, cleanList d (ifForToIfList l) = ifForToIfList (cleanList d l)) := by
  apply stmt_induction
  · intro s hl
    cases s <;> simp [isLeaf] at hl <;> simp [ifForToIf, cleanStmt]
  · intro t e ht he
    simp only [ifForToIf, cleanStmt, ht, he, ← ifForToIfList_orTau, isTauSeq_ifForToIfList]
    split <;> simp [ifForToIf]
  · intro t e ht he
    simp only [ifForToIf, cleanStmt, ht, he, ← ifForToIfList_orTau, isTauSeq_ifForToIfList]
    split <;> simp [ifForToIf]
  · intro cs hcs
    have h1 : cleanCases d (ifForToIfCases cs) = ifForToIfCases (cleanCases d cs) := by
      simp only [cleanCases_eq_map, ifForToIfCases_eq_map, List.map_map]
      apply List.map_congr_left
      intro c hc
      simp only [Function.comp, cleanSeq, hcs c hc, ifForToIfList_orTau]
    have h2 : (ifForToIfCases (cleanCases d cs)).all isTauSeq
        = (cleanCases d cs).all isTauSeq := by
      simp only [ifForToIfCases_eq_map, List.all_map]
      congr 1
      funext x
      exact isTauSeq_ifForToIfList x
    simp only [ifForToIf, cleanStmt, h1, h2]
    split <;> simp [ifForToIf]
  · simp [ifForToIfList, cleanList]
  · intro s ss hs hss
    simp only [ifForToIfList, cleanList_cons_toList, hs, hss, ifForToIfList_append]
    cases cleanStmt d s <;> simp [ifForToIfList]

theorem cleanSeq_ifForToIfList (d : String → Bool) (l : List Statement) :
    cleanSeq d (ifForToIfList l) = ifForToIfList (cleanSeq d l) := by
  rw [cleanSeq, (clean_ifForToIf_aux d).2 l, ← ifForToIfList_orTau, cleanSeq]

/-- C16: `traverse` treats `IfFor` exactly like `If`.  For every sequence
and function table, the result for the sequence with every `IfFor` turned
into an `If` is the result for the sequence itself with every `IfFor` turned
into an `If`; so an `IfFor` and the `If` with the same branches are deleted
or kept together, with the same branches. -/
theorem traverse_treats_ifFor_as_if (r : undefRemover) (ss : List Statement) :
    (∃ out, r.run ss = .ok out ∧ r.run (ifForToIfList ss) = .ok (ifForToIfList out)) ∧
    (∀ pre post t e, ∃ out out',
      r.run (pre ++ .IfForStatement t e :: post) = .ok out ∧
      r.run (pre ++ .IfStatement t e :: post) = .ok out' ∧
      ifForToIfList out = ifForToIfList out') := by
  constructor
  · refine ⟨_, run_eq_cleanSeq r ss, ?_⟩
    rw [run_eq_cleanSeq, cleanSeq_ifForToIfList]
  · intro pre post t e
    refine ⟨_, _, run_eq_cleanSeq r _, run_eq_cleanSeq r _, ?_⟩
    rw [← cleanSeq_ifForToIfList, ← cleanSeq_ifForToIfList]
    simp [ifForToIfList_append, ifForToIfList, ifForToIf]

/-! ## One pass reaches the normal form -/

/-- C17: `deadcall.Remove` is idempotent: it returns a program on which it
changes nothing, neither the function table nor any body. -/
theorem remove_twice_is_remove (p : Program) :
    ∃ q, deadcall.Remove p = .ok q ∧ deadcall.Remove q = .ok q := by
  refine ⟨cleanProgram p, Remove_eq_cleanProgram p, ?_⟩
  rw [Remove_eq_cleanProgram, cleanProgram_idem]

theorem cleanStmt_not_vacuous (d : String → Bool) (s s' : Statement)
    (h : cleanStmt d s = some s') : vacuous s' = false := by
  cases s <;> simp only [cleanStmt] at h
  case IfStatement t e =>
    split at h
    · simp at h
    · rename_i hb
      simp only [Option.some.injEq] at h
      subst h
      simpa [vacuous] using hb
  case IfForStatement t e =>
    split at h
    · simp at h
    · rename_i hb
      simp only [Option.some.injEq] at h
      subst h
      simpa [vacuous] using hb
  case SelectStatement cs =>
    split at h
    · simp at h
    · rename_i hb
      simp only [Option.some.injEq] at h
      subst h
      simpa [vacuous] using hb
  case CallStatement n ps =>
    split at h
    · simp only [Option.some.injEq] at h; subst h; rfl
    · simp at h
  case SpawnStatement n ps =>
    split at h
    · simp only [Option.some.injEq] at h; subst h; rfl
    · simp at h
  all_goals (simp only [Option.some.injEq] at h; subst h; rfl)

theorem not_vacuous_of_mem_cleanSeq (d : String → Bool) (l : List Statement) (s : Statement)
    (h : s ∈ cleanSeq d l) : vacuous s = false := by
  rcases mem_cleanSeq d l s h with rfl | hm
  · rfl
  · obtain ⟨s0, -, hc⟩ := (mem_cleanList d l s).1 hm
    exact cleanStmt_not_vacuous d s0 s hc

theorem not_vacuous_cleanProgram (p : Program) (f : Function) (x : List Statement)
    (s : Statement) (hf : f ∈ (cleanProgram p).Funcs) (hx : Nested x f.Stmts) (hs : s ∈ x) :
    vacuous s = false := by
  obtain ⟨l', rfl⟩ := nested_cleanProgram p f x hf hx
  exact not_vacuous_of_mem_cleanSeq _ l' s hs

/-- C18: after `deadcall.Remove` the program is in collapsed normal form at
every nesting depth: no statement of any sequence is an `If` or `IfFor`
whose `Then` and `Else` are both exactly `[Tau]`, or a `Select` whose cases
are all exactly `[Tau]`.  A construct that becomes vacuous only through
deletions inside it is collapsed in the same pass: in scenario C a choice
between a vacuous choice and a vacuous select is deleted whole. -/
theorem remove_leaves_no_vacuous_construct (p : Program) :
    (∃ q, deadcall.Remove p = .ok q ∧
      ∀ f ∈ q.Funcs, ∀ x, Nested x f.Stmts → ∀ s ∈ x,
        vacuous s = false ∧
        s ≠ .IfStatement [.TauStatement] [.TauStatement] ∧
        s ≠ .IfForStatement [.TauStatement] [.TauStatement] ∧
        ∀ cs, (∀ c ∈ cs, c = [Statement.TauStatement]) → s ≠ .SelectStatement cs) ∧
    (undefRemover.mk scenarioC).run
        [.SendStatement "x",
          .IfStatement [.IfForStatement [.CallStatement "main.xx#2" []] []]
            [.SelectStatement [[.SpawnStatement "main.xx#2" []], []]]]
      = .ok [.SendStatement "x"] := by
  refine ⟨⟨cleanProgram p, Remove_eq_cleanProgram p, ?_⟩, rfl⟩
  intro f hf x hx s hs
  have hv := not_vacuous_cleanProgram p f x s hf hx hs
  refine ⟨hv, ?_, ?_, ?_⟩
  · rintro rfl; simp [vacuous, isTauSeq] at hv
  · rintro rfl; simp [vacuous, isTauSeq] at hv
  · rintro cs hcs rfl
    have : cs.all isTauSeq = true := by
      rw [List.all_eq_true]
      intro c hc
      rw [hcs c hc]; rfl
    simp [vacuous, this] at hv

theorem forall₂_cleanProgram (d : String → Bool) (l : List Function) :
    List.Forall₂ (fun f f' => f'.Name = f.Name ∧ f'.Params = f.Params ∧
        f'.Stmts = cleanSeq d f.Stmts)
      l (l.map (fun f => withStmts f (cleanSeq d f.Stmts))) := by
  rw [List.forall₂_map_right_iff, List.forall₂_same]
  intro f _
  exact ⟨rfl, rfl, rfl⟩

/-- C19: `deadcall.Remove` leaves the function table as it was: as many
functions, with the same names and parameters in the same order, each body
replaced by the result of `traverse` on it; and that result depends on the
program only through the set of its function names. -/
theorem remove_keeps_function_table (p : Program) :
    (∃ q, deadcall.Remove p = .ok q ∧
      q.Funcs.length = p.Funcs.length ∧
      q.Funcs.map (fun f => (f.Name, f.Params)) = p.Funcs.map (fun f => (f.Name, f.Params)) ∧
      List.Forall₂ (fun f f' => f'.Name = f.Name ∧ f'.Params = f.Params ∧
        (undefRemover.mk p).run f.Stmts = .ok f'.Stmts) p.Funcs q.Funcs) ∧
    (∀ (p' : Program) (ss : List Statement), (∀ n, n ∈ names p ↔ n ∈ names p') →
      (undefRemover.mk p).run ss = (undefRemover.mk p').run ss) := by
  constructor
  · refine ⟨cleanProgram p, Remove_eq_cleanProgram p, length_cleanProgram p, ?_, ?_⟩
    · simp [cleanProgram, withStmts, Function.comp_def]
    · have := forall₂_cleanProgram (undefRemover.mk p).found p.Funcs
      refine List.Forall₂.imp ?_ this
      rintro f f' ⟨h1, h2, h3⟩
      exact ⟨h1, h2, by rw [run_eq_cleanSeq, h3]⟩
  · intro p' ss hn
    have hfound : (undefRemover.mk p).found = (undefRemover.mk p').found := by
      funext n
      have h1 := found_iff p n
      have h2 := found_iff p' n
      cases ha : (undefRemover.mk p).found n <;> cases hb : (undefRemover.mk p').found n <;>
        simp_all
    rw [run_eq_cleanSeq, run_eq_cleanSeq, hfound]

/-- C20: a `Select` without cases is deleted.  The flag "all cases are tau"
starts true and no case falsifies it, so for every sequence holding such a
`Select` the result is what the scan keeps of the statements before it
followed by what it keeps of the statements after it (or `[Tau]` when that
is empty), as for the sequence without it, and no `Select` without cases is
in the result. -/
theorem traverse_deletes_select_without_cases (r : undefRemover)
    (pre post : List Statement) :
    selectFlags [] true false = .ok ([], true, false) ∧
    ∃ pre' post',
      r.traverseLoop (sizeList pre) pre 0 = .ok pre' ∧
      r.traverseLoop (sizeList post) post 0 = .ok post' ∧
      r.run (pre ++ .SelectStatement [] :: post) = .ok (orTau (pre' ++ post')) ∧
      r.run (pre ++ post) = .ok (orTau (pre' ++ post')) ∧
      Statement.SelectStatement [] ∉ orTau (pre' ++ post') := by
  refine ⟨rfl, _, _, traverseLoop_eq_cleanList r _ pre (Nat.le_refl _),
    traverseLoop_eq_cleanList r _ post (Nat.le_refl _), ?_, ?_, ?_⟩
  · rw [run_eq_cleanSeq, cleanSeq_mid_deleted]
    simp [cleanStmt, cleanCases]
  · rw [run_eq_cleanSeq, cleanSeq, cleanList_append]
  · intro hmem
    rw [← cleanList_append] at hmem
    have := not_vacuous_of_mem_cleanSeq r.found (pre ++ post) _ hmem
    simp [vacuous] at this

/-! ## The length-0 branch of the select case -/

theorem mapM_ok_forall₂ {α β : Type} (f : α → Except TraverseError β) :
    ∀ (cs : List α) (cs' : List β), cs.mapM f = .ok cs' →
      List.Forall₂ (fun c c' => f c = .ok c') cs cs' := by
  intro cs
  induction cs with
  | nil =>
    intro cs' h
    have h0 : ([] : List α).mapM f = .ok [] := by simp; rfl
    rw [h0] at h
    rw [← Except.ok.inj h]
    exact List.Forall₂.nil
  | cons c cs ih =>
    intro cs' h
    rw [List.mapM_cons] at h
    cases hc : f c with
    | error e => rw [hc] at h; cases h
    | ok b =>
      rw [hc, ok_bind] at h
      cases hm : cs.mapM f with
      | error e => rw [hm] at h; cases h
      | ok bs =>
        rw [hm, ok_bind] at h
        rw [← Except.ok.inj h]
        exact List.Forall₂.cons hc (ih bs hm)

theorem forall₂_mem_right {α β : Type} {R : α → β → Prop} {l : List α} {l' : List β}
    (h : List.Forall₂ R l l') : ∀ y ∈ l', ∃ x ∈ l, R x y := by
  induction h with
  | nil => intro y hy; simp at hy
  | cons hab _ ih =>
    intro y hy
    rcases List.mem_cons.mp hy with rfl | hy
    · exact ⟨_, by simp, hab⟩
    · obtain ⟨x, hx, hr⟩ := ih y hy
      exact ⟨x, by simp [hx], hr⟩

theorem traverse_ok_eq (r : undefRemover) (fuel : Nat) (c out : List Statement)
    (h : r.traverse fuel c = .ok out) : out = cleanSeq r.found c := by
  rcases (traverse_any_fuel_aux r fuel).1 c with h1 | h1
  · rw [h1] at h; exact (Except.ok.inj h).symm
  · rw [h1] at h; cases h

theorem length_pos_of_ne_nil {α : Type} (l : List α) (h : l ≠ []) : 1 ≤ l.length := by
  cases l with
  | nil => exact absurd rfl h
  | cons a b => simp

theorem map_orTau_eq_iff (cs : List (List Statement)) :
    cs.map orTau = cs ↔ ∀ c ∈ cs, c.length ≠ 0 := by
  induction cs with
  | nil => simp
  | cons c cs ih =>
    simp only [List.map_cons, List.cons.injEq, ih, List.mem_cons, forall_eq_or_imp]
    constructor
    · rintro ⟨h1, h2⟩
      refine ⟨?_, h2⟩
      intro h0
      rw [List.length_eq_zero] at h0
      subst h0
      simp [orTau] at h1
    · rintro ⟨h1, h2⟩
      exact ⟨by simp [orTau, h1], h2⟩

/-- C21: in the select case, the branch for a case of length 0 is never
taken.  Whatever the call budget, when the recursive traversals of the cases
return, every resulting case is the result of `traverse` on the case it
replaces and has at least one statement, so the second loop returns the
cases as it got them; that loop returns its cases unchanged exactly when
none has length 0.  A case of which the scan keeps nothing is already
`[Tau]` when the recursive call returns. -/
theorem select_empty_case_branch_unreachable (r : undefRemover) (fuel : Nat)
    (cs cs' : List (List Statement)) (h : cs.mapM (r.traverse fuel) = .ok cs') :
    List.Forall₂ (fun c c' => r.traverse fuel c = .ok c' ∧ 1 ≤ c'.length) cs cs' ∧
    (∀ c' ∈ cs', 1 ≤ c'.length ∧ ¬ (c'.length = 0)) ∧
    (∀ tau tauOne, ∃ tau' tauOne', selectFlags cs' tau tauOne = .ok (cs', tau', tauOne')) ∧
    (∀ (xs : List (List Statement)) tau tauOne, ∃ out tau' tauOne',
      selectFlags xs tau tauOne = .ok (out, tau', tauOne') ∧
      (out = xs ↔ ∀ c ∈ xs, c.length ≠ 0)) ∧
    (∀ k c, r.traverseLoop k c 0 = .ok [] →
      r.traverse (k + 1) c = .ok [Statement.TauStatement]) ∧
    (∀ k c out, r.traverse k c = .ok out → 1 ≤ out.length) := by
  have hne : ∀ k c out, r.traverse k c = .ok out → 1 ≤ out.length := by
    intro k c out hk
    rw [traverse_ok_eq r k c out hk]
    exact length_pos_of_ne_nil _ (cleanSeq_ne_nil _ _)
  have hf2 := mapM_ok_forall₂ (r.traverse fuel) cs cs' h
  have hall : ∀ c' ∈ cs', 1 ≤ c'.length := by
    intro c' hc'
    obtain ⟨c, -, hc⟩ := forall₂_mem_right hf2 c' hc'
    exact hne fuel c c' hc
  have hsame : cs'.map orTau = cs' :=
    (map_orTau_eq_iff cs').2 (fun c hc => by have := hall c hc; omega)
  refine ⟨?_, ?_, ?_, ?_, ?_, hne⟩
  · exact List.Forall₂.imp (fun c c' hc => ⟨hc, hne fuel c c' hc⟩) hf2
  · intro c' hc'
    have := hall c' hc'
    exact ⟨this, by omega⟩
  · intro tau tauOne
    refine ⟨tau && cs'.all isTauSeq, tauOne || cs'.any isTauSeq, ?_⟩
    rw [selectFlags_eq, hsame]
  · intro xs tau tauOne
    exact ⟨_, _, _, selectFlags_eq xs tau tauOne, map_orTau_eq_iff xs⟩
  · intro k c hk
    simp only [undefRemover.traverse, hk, ok_bind]
    rfl

/-- Witness for C21: in scenario C the cases `[call main.xx#2]`, `[]` and
`[send x]` come back from the recursive traversals as `[Tau]`, `[Tau]` and
`[send x]`; none is empty and the second loop leaves them as they are. -/
theorem select_empty_case_branch_unreachable_witness :
    ([[Statement.CallStatement "main.xx#2" []], [], [Statement.SendStatement "x"]].mapM
        ((undefRemover.mk scenarioC).traverse 3)
      = .ok [[.TauStatement], [.TauStatement], [.SendStatement "x"]]) ∧
    (List.Forall₂ (fun c c' => (undefRemover.mk scenarioC).traverse 3 c = .ok c' ∧
        1 ≤ c'.length)
      [[Statement.CallStatement "main.xx#2" []], [], [Statement.SendStatement "x"]]
      [[.TauStatement], [.TauStatement], [.SendStatement "x"]] ∧
    (∀ c' ∈ [[Statement.TauStatement], [.TauStatement], [.SendStatement "x"]],
      1 ≤ c'.length ∧ ¬ (c'.length = 0)) ∧
    (∀ tau tauOne, ∃ tau' tauOne',
      selectFlags [[.TauStatement], [.TauStatement], [.SendStatement "x"]] tau tauOne
        = .ok ([[.TauStatement], [.TauStatement], [.SendStatement "x"]], tau', tauOne')) ∧
    (∀ (xs : List (List Statement)) tau tauOne, ∃ out tau' tauOne',
      selectFlags xs tau tauOne = .ok (out, tau', tauOne') ∧
      (out = xs ↔ ∀ c ∈ xs, c.length ≠ 0)) ∧
    (∀ k c, (undefRemover.mk scenarioC).traverseLoop k c 0 = .ok [] →
      (undefRemover.mk scenarioC).traverse (k + 1) c = .ok [Statement.TauStatement]) ∧
    (∀ k c out, (undefRemover.mk scenarioC).traverse k c = .ok out → 1 ≤ out.length)) ∧
    selectFlags [[.TauStatement], [.TauStatement], [.SendStatement "x"]] true false
      = .ok ([[.TauStatement], [.TauStatement], [.SendStatement "x"]], false, true) :=
  ⟨rfl, select_empty_case_branch_unreachable (undefRemover.mk scenarioC) 3
    [[.CallStatement "main.xx#2" []], [], [.SendStatement "x"]]
    [[.TauStatement], [.TauStatement], [.SendStatement "x"]] rfl, rfl⟩

end migo
